import Mathlib

/-!
# PEG.js code emitter (`src/emitter.js`): a verification development

The repository contains the code-emission core of a PEG compiler:
`PEG.compiler.emitter` walks a grammar AST and produces the source text of a
packrat recursive-descent parser.  This file embeds two layers of that code:

1. the *runtime semantics of the emitted parser fragments* — every operator
   emitter produces a fixed code template, so the behaviour of the emitted
   code is fully determined by the emitter; we translate each template into a
   case of a fuel-indexed interpreter (`runExpr` and friends) over an explicit
   parser state (`pos`, `reportMatchFailures`, the rightmost-failure
   aggregate, and the packrat `cache`);

2. the *text level of the emitter itself* — the template engine
   (`formatCode` = interpolation + multi-line re-indentation + newline join),
   the `UID` allocator, the quoting helpers, and the per-node emission
   functions producing the generated source string.

User code embedded in the grammar (actions, semantic predicates) is modelled
by opaque Lean functions in the semantic AST: a semantic predicate is a
boolean, an action is a function from the splatted sub-results to a possibly
null value.
-/

namespace PegEmitter

/-! ## Values of the emitted parser

A result variable of the emitted parser holds either `null` (modelled by
`Option.none` at the use sites) or a proper value: a string, an array
(sequences and repetitions), or JavaScript `undefined` (out-of-range array
index, only reachable through malformed action argument splatting). -/

inductive Value : Type where
  | str : List Char → Value
  | arr : List Value → Value
  | undefVal : Value

mutual

def Value.decEq : (a b : Value) → Decidable (a = b)
  | .str a, .str b =>
    if h : a = b then isTrue (by rw [h])
    else isFalse (by intro hh; cases hh; exact h rfl)
  | .arr a, .arr b =>
    match Value.decEqList a b with
    | isTrue h => isTrue (by rw [h])
    | isFalse h => isFalse (by intro hh; cases hh; exact h rfl)
  | .undefVal, .undefVal => isTrue rfl
  | .str _, .arr _ => isFalse (fun h => Value.noConfusion h)
  | .str _, .undefVal => isFalse (fun h => Value.noConfusion h)
  | .arr _, .str _ => isFalse (fun h => Value.noConfusion h)
  | .arr _, .undefVal => isFalse (fun h => Value.noConfusion h)
  | .undefVal, .str _ => isFalse (fun h => Value.noConfusion h)
  | .undefVal, .arr _ => isFalse (fun h => Value.noConfusion h)

def Value.decEqList : (a b : List Value) → Decidable (a = b)
  | [], [] => isTrue rfl
  | a :: as, b :: bs =>
    match Value.decEq a b with
    | isFalse h1 => isFalse (by intro hh; cases hh; exact h1 rfl)
    | isTrue h1 =>
      match Value.decEqList as bs with
      | isTrue h2 => isTrue (by rw [h1, h2])
      | isFalse h2 => isFalse (by intro hh; cases hh; exact h2 rfl)
  | [], _ :: _ => isFalse (fun h => List.noConfusion h)
  | _ :: _, [] => isFalse (fun h => List.noConfusion h)

end

instance : DecidableEq Value := Value.decEq

/-- Array indexing as in the emitted `resultN[i]` splat: JavaScript yields
`undefined` when out of range or when the value is not an array. -/
def Value.index : Value → Nat → Value
  | .arr l, i => l.getD i .undefVal
  | _, _ => .undefVal

/-! ## The semantic grammar AST

Mirrors the operator node kinds dispatched by `buildNodeVisitor` in
`src/emitter.js`, with user code replaced by its denotation:
`semantic_and`/`semantic_not` carry the boolean their code returns, and
`action` carries the function its code computes from the splatted
sub-results (which may return `none`, i.e. JavaScript `null`). -/

inductive Expr : Type where
  | choice : List Expr → Expr
  | sequence : List Expr → Expr
  | labeled : String → Expr → Expr
  | simple_and : Expr → Expr
  | simple_not : Expr → Expr
  | semantic_and : Bool → Expr
  | semantic_not : Bool → Expr
  | opt : Expr → Expr
  | zero_or_more : Expr → Expr
  | one_or_more : Expr → Expr
  | action : Expr → (List Value → Option Value) → Expr
  | rule_ref : String → Expr
  | literal : List Char → Expr
  | any : Expr
  | cls : List (Char ⊕ (Char × Char)) → Bool → String → Expr

structure Rule : Type where
  displayName : Option String
  expr : Expr

structure Grammar : Type where
  startRule : String
  rules : List (String × Rule)

/-! ## Parser state of the emitted parser

`parse` initialises `pos = 0`, `reportMatchFailures = true`,
`rightmostMatchFailuresPos = 0`, `rightmostMatchFailuresExpected = []`,
`cache = {}` (emitter.js, grammar template).  The cache maps string keys
`"<name>@<pos>"` to `{ nextPos, result }`; we model the JavaScript object as
an association list where assignment conses and lookup takes the first hit
(i.e. assignment overrides). -/

structure PState : Type where
  input : List Char
  pos : Nat
  reportMF : Bool
  rmPos : Nat
  rmExp : List String
  cache : List (String × (Nat × Option Value))
deriving DecidableEq

def initState (input : List Char) : PState :=
  { input := input, pos := 0, reportMF := true, rmPos := 0, rmExp := [], cache := [] }

/-- Decimal digit loop for `natStr`; the first argument bounds the
recursion depth (`natStr` passes `n` itself, and `n / 10 < n` for `n ≥ 10`,
so the fallback case is never reached). -/
def natStrGo : Nat → Nat → List Char
  | 0, n => [Char.ofNat (48 + n % 10)]
  | fuel + 1, n =>
    if n < 10 then [Char.ofNat (48 + n)]
    else natStrGo fuel (n / 10) ++ [Char.ofNat (48 + n % 10)]

/-- Decimal rendering of a natural number, as JavaScript string conversion of
a non-negative integer produces it (used in `'<name>@' + pos`). -/
def natStr (n : Nat) : List Char := natStrGo n n

/-- The packrat cache key `'<name>@' + pos` (rule template in emitter.js). -/
def ckey (name : String) (p : Nat) : String :=
  name ++ "@" ++ String.mk (natStr p)

/-- The emitted helper `matchFailed(failure)` (grammar template): failures
left of the rightmost recorded position are ignored; a failure strictly to
the right resets the expected list and the position; then the failure is
appended. -/
def matchFailed (s : PState) (failure : String) : PState :=
  if s.pos < s.rmPos then s
  else if s.pos > s.rmPos then { s with rmPos := s.pos, rmExp := [failure] }
  else { s with rmExp := s.rmExp ++ [failure] }

/-- The guarded call `if (reportMatchFailures) { matchFailed(...) }` emitted
by the `literal`, `any` and `class` emitters. -/
def failReport (s : PState) (msg : String) : PState :=
  if s.reportMF then matchFailed s msg else s

/-! ## Quoting helpers

The emitted parser inlines `padLeft`, `escape` and `quote`, each annotated
"needs to be in sync with utils.js" (the `utils.js` file itself is not part
of `src/`); we translate the inlined copies.  The same `quote` is used by the
emitter's `string` template filter and for the `literal` expectation text. -/

def padLeft (input : List Char) (padding : Char) (len : Nat) : List Char :=
  List.replicate (len - input.length) padding ++ input

def hexDigit (n : Nat) : Char :=
  if n < 10 then Char.ofNat (48 + n) else Char.ofNat (55 + n)

def hexStrGo : Nat → Nat → List Char
  | 0, n => [hexDigit (n % 16)]
  | fuel + 1, n =>
    if n < 16 then [hexDigit n]
    else hexStrGo fuel (n / 16) ++ [hexDigit (n % 16)]

def hexStr (n : Nat) : List Char := hexStrGo n n

/-- The emitted `escape(ch)`: `\xHH` for code points up to 0xFF, `\uHHHH`
above (uppercase hex, zero-padded). -/
def escapeChar (c : Char) : List Char :=
  let code := c.toNat
  if code ≤ 0xFF then '\\' :: 'x' :: padLeft (hexStr code) '0' 2
  else '\\' :: 'u' :: padLeft (hexStr code) '0' 4

/-- The emitted `quote(s)`: wrap in double quotes; escape backslash, double
quote, carriage return, line feed, and all characters at or above 0x80. -/
def jsQuote (s : List Char) : List Char :=
  '"' :: (s.flatMap fun c =>
    if c = '\\' then ['\\', '\\']
    else if c = '"' then ['\\', '"']
    else if c = '\r' then ['\\', 'r']
    else if c = '\n' then ['\\', 'n']
    else if 0x80 ≤ c.toNat then escapeChar c
    else [c]) ++ ['"']

/-! ## Character-class matching

The `class` emitter compiles the parts into the anchored regular expression
`/^[(^?)parts]/` (or `/^(?!)/` and `/^[\S\s]/` for the empty non-inverted and
inverted classes) and tests it against `input.substr(pos)`.  The regular
expression matches exactly one character at the current position; we denote
it by a character predicate. -/

def classMatch (parts : List (Char ⊕ (Char × Char))) (inverted : Bool) (c : Char) : Bool :=
  let inParts := parts.any fun pt =>
    match pt with
    | .inl a => c = a
    | .inr (lo, hi) => lo ≤ c ∧ c ≤ hi
  if parts.isEmpty then inverted else inParts ≠ inverted

/-! ## The interpreter for the emitted fragments

Each case of `runExpr` is the denotation of the code template the
corresponding emission function produces (emitter.js, functions `choice`
through `class`); `runRule` is the denotation of the emitted
`function parse_<name>()` (rule template: packrat check, optional
display-name scaffolding, cache store), and `runParse` of the `parse` entry
point.  Fuel decreases on every call; `none` means the computation was not
completed within the given fuel (or, for `runRule` on an unknown rule name,
that the emitted code would crash on a call to an undefined function). -/

mutual

def runExpr (g : Grammar) : Nat → Expr → PState → Option (PState × Option Value)
  | 0, _, _ => none
  | fuel + 1, e, s =>
    match e with
    | .choice alts => runAlts g fuel alts s
    | .sequence elems =>
      -- sequence template: `var savedPos = pos;` then nested element
      -- fragments; on any element failure `result = null; pos = savedPos;`.
      match runElems g fuel elems s with
      | none => none
      | some (s₁, none) => some ({ s₁ with pos := s.pos }, none)
      | some (s₁, some vs) => some (s₁, some (.arr vs))
    | .labeled _ e₁ => runExpr g fuel e₁ s
    | .simple_and e₁ =>
      -- simple_and template: save pos and reportMatchFailures, clear the
      -- flag, run the expression, restore the flag; on success `''` and
      -- restore pos, on failure `null`.
      match runExpr g fuel e₁ { s with reportMF := false } with
      | none => none
      | some (s₁, r) =>
        let s₂ := { s₁ with reportMF := s.reportMF }
        match r with
        | some _ => some ({ s₂ with pos := s.pos }, some (.str []))
        | none => some (s₂, none)
    | .simple_not e₁ =>
      match runExpr g fuel e₁ { s with reportMF := false } with
      | none => none
      | some (s₁, r) =>
        let s₂ := { s₁ with reportMF := s.reportMF }
        match r with
        | some _ => some ({ s₂ with pos := s.pos }, none)
        | none => some (s₂, some (.str []))
    | .semantic_and b => some (s, if b then some (.str []) else none)
    | .semantic_not b => some (s, if b then none else some (.str []))
    | .opt e₁ =>
      match runExpr g fuel e₁ s with
      | none => none
      | some (s₁, r) => some (s₁, some (match r with | some v => v | none => .str []))
    | .zero_or_more e₁ =>
      match runLoop g fuel e₁ s [] with
      | none => none
      | some (s₁, acc) => some (s₁, some (.arr acc))
    | .one_or_more e₁ =>
      match runExpr g fuel e₁ s with
      | none => none
      | some (s₁, none) => some (s₁, none)
      | some (s₁, some v) =>
        match runLoop g fuel e₁ s₁ [v] with
        | none => none
        | some (s₂, acc) => some (s₂, some (.arr acc))
    | .action e₁ f =>
      match runExpr g fuel e₁ s with
      | none => none
      | some (s₁, none) => some (s₁, none)
      | some (s₁, some v) => some (s₁, f (actionArgs e₁ v))
    | .rule_ref name => runRule g fuel name s
    | .literal v =>
      if (s.input.drop s.pos).take v.length = v then
        some ({ s with pos := s.pos + v.length }, some (.str v))
      else
        some (failReport s (String.mk (jsQuote v)), none)
    | .any =>
      match s.input.get? s.pos with
      | some c => some ({ s with pos := s.pos + 1 }, some (.str [c]))
      | none => some (failReport s "any character", none)
    | .cls parts inverted rawText =>
      match s.input.get? s.pos with
      | some c =>
        if classMatch parts inverted c then
          some ({ s with pos := s.pos + 1 }, some (.str [c]))
        else some (failReport s rawText, none)
      | none => some (failReport s rawText, none)

/-- Denotation of the nested alternative fragments the `choice` emitter
builds (innermost code `var result = null;`, each alternative wrapped as
`if (altResult !== null) { result = altResult } else { ... }`). -/
def runAlts (g : Grammar) : Nat → List Expr → PState → Option (PState × Option Value)
  | 0, _, _ => none
  | _ + 1, [], s => some (s, none)
  | fuel + 1, a :: rest, s =>
    match runExpr g fuel a s with
    | none => none
    | some (s₁, some v) => some (s₁, some v)
    | some (s₁, none) => runAlts g fuel rest s₁

/-- Denotation of the nested element fragments the `sequence` emitter builds;
returns the element values on success, `none` (null) at the first failing
element (position restore is done by the `sequence` case of `runExpr`). -/
def runElems (g : Grammar) : Nat → List Expr → PState → Option (PState × Option (List Value))
  | 0, _, _ => none
  | _ + 1, [], s => some (s, some [])
  | fuel + 1, e :: rest, s =>
    match runExpr g fuel e s with
    | none => none
    | some (s₁, none) => some (s₁, none)
    | some (s₁, some v) =>
      match runElems g fuel rest s₁ with
      | none => none
      | some (s₂, none) => some (s₂, none)
      | some (s₂, some vs) => some (s₂, some (v :: vs))

/-- Denotation of the emitted repetition loop
`while (exprResult !== null) { result.push(exprResult); <exprCode> }`
together with the run of `<exprCode>` preceding the loop test. -/
def runLoop (g : Grammar) : Nat → Expr → PState → List Value → Option (PState × List Value)
  | 0, _, _, _ => none
  | fuel + 1, e, s, acc =>
    match runExpr g fuel e s with
    | none => none
    | some (s₁, none) => some (s₁, acc)
    | some (s₁, some v) => runLoop g fuel e s₁ (acc ++ [v])

/-- Denotation of the emitted `function parse_<name>()` (rule template):
packrat check on `'<name>@' + pos`; on a miss, the optional display-name
save/clear/restore-and-report scaffolding around the body; finally the cache
store `{ nextPos: pos, result: result }` and return. -/
def runRule (g : Grammar) : Nat → String → PState → Option (PState × Option Value)
  | 0, _, _ => none
  | fuel + 1, name, s =>
    match g.rules.lookup name with
    | none => none
    | some rule =>
      let key := ckey name s.pos
      match s.cache.lookup key with
      | some (np, r) => some ({ s with pos := np }, r)
      | none =>
        match rule.displayName with
        | some dn =>
          match runExpr g fuel rule.expr { s with reportMF := false } with
          | none => none
          | some (s₁, r) =>
            let s₂ := { s₁ with reportMF := s.reportMF }
            let s₃ := if s₂.reportMF = true ∧ r = none then matchFailed s₂ dn else s₂
            some ({ s₃ with cache := (key, (s₃.pos, r)) :: s₃.cache }, r)
        | none =>
          match runExpr g fuel rule.expr s with
          | none => none
          | some (s₁, r) =>
            some ({ s₁ with cache := (key, (s₁.pos, r)) :: s₁.cache }, r)

/-- Argument splatting of the `action` emitter: a labeled element of a
direct `sequence` sub-expression contributes `exprResult[i]`, a directly
labeled sub-expression contributes the whole result, anything else
contributes no argument. -/
def actionArgs : Expr → Value → List Value
  | .sequence elems, v => seqArgs elems v 0
  | .labeled _ _, v => [v]
  | _, _ => []

def seqArgs : List Expr → Value → Nat → List Value
  | [], _, _ => []
  | el :: rest, v, i =>
    match el with
    | .labeled _ _ => v.index i :: seqArgs rest v (i + 1)
    | _ => seqArgs rest v (i + 1)

end

/-! ## The emitted helpers `computeErrorPosition` and `buildErrorMessage` -/

/-- The loop of the emitted `computeErrorPosition` (grammar template):
`for (i = 0; i < rightmostMatchFailuresPos; i++)` with the `line`, `column`
and `seenCR` state.  `input.charAt(i)` for `i` past the end of the input
yields the empty string in JavaScript and therefore takes the default
branch; we model `charAt` by `List.get?`. -/
def cepGo (input : List Char) : Nat → Nat → Nat → Nat → Bool → Nat × Nat
  | 0, _, line, col, _ => (line, col)
  | rem + 1, i, line, col, seenCR =>
    let ch := input.get? i
    if ch = some '\n' then
      cepGo input rem (i + 1) (if seenCR then line else line + 1) 1 false
    else if ch = some '\r' ∨ ch = some ' ' ∨ ch = some ' ' then
      cepGo input rem (i + 1) (line + 1) 1 true
    else
      cepGo input rem (i + 1) line (col + 1) false

/-- The emitted `computeErrorPosition()`: scan the input up to
`rightmostMatchFailuresPos`, starting from line 1, column 1. -/
def computeErrorPosition (input : List Char) (rmPos : Nat) : Nat × Nat :=
  cepGo input rmPos 0 1 1 false

/-- A previous-character formulation of the same scan, parameterised by the
set of characters after which a `'\n'` does not advance the line counter
again.  Used to state claim C7 (with `suppress` = "only after `'\r'`", the
claim's words) and its amendment (after any of `'\r'`, `' '`,
`' '`, which is what the emitted `seenCR` flag records). -/
def scanGo (suppress : Char → Bool) (input : List Char) :
    Nat → Nat → Nat → Nat → Option Char → Nat × Nat
  | 0, _, line, col, _ => (line, col)
  | rem + 1, i, line, col, prev =>
    let ch := input.get? i
    if ch = some '\n' then
      scanGo suppress input rem (i + 1)
        (if prev.elim false suppress then line else line + 1) 1 ch
    else if ch = some '\r' ∨ ch = some ' ' ∨ ch = some ' ' then
      scanGo suppress input rem (i + 1) (line + 1) 1 ch
    else
      scanGo suppress input rem (i + 1) line (col + 1) ch

/-- Line/column of an offset per the claimed description, with a
parameterised `'\n'`-suppression set. -/
def scanLineCol (suppress : Char → Bool) (input : List Char) (stop : Nat) : Nat × Nat :=
  scanGo suppress input stop 0 1 1 none

/-- The suppression set stated by claim C7: only a preceding `'\r'`. -/
def suppressClaim (c : Char) : Bool := c = '\r'

/-- The suppression set the emitted code actually uses (`seenCR` is set by
`'\r'`, `' '` and `' '` alike). -/
def suppressAmended (c : Char) : Bool := c = '\r' ∨ c = ' ' ∨ c = ' '

/-- Lexicographic comparison of character lists, the order JavaScript's
default `Array.sort` comparator induces on strings (code-unit order). -/
def lexLe : List Char → List Char → Bool
  | [], _ => true
  | _ :: _, [] => false
  | a :: as, b :: bs =>
    if a < b then true else if b < a then false else lexLe as bs

def strLe (a b : String) : Bool := lexLe a.data b.data

/-- Insertion of a string into a sorted list, for `jsSort`. -/
def insertSorted (x : String) : List String → List String
  | [] => [x]
  | y :: rest => if strLe x y then x :: y :: rest else y :: insertSorted x rest

/-- Denotation of JavaScript's default `Array.sort` on an array of strings:
the sorted rearrangement under the lexicographic order.  (A sorted list is
determined by its multiset of elements, so every correct sort computes this
same function; we use insertion sort.) -/
def jsSort (l : List String) : List String := l.foldr insertSorted []

/-- Adjacent de-duplication as performed by the emitted loop over the sorted
expectation list (`if (failuresExpected[i] !== lastFailure) push`). -/
def dedupGo (last : String) : List String → List String
  | [] => []
  | x :: rest => if x = last then dedupGo last rest else x :: dedupGo x rest

def dedupAdjacent : List String → List String
  | [] => []
  | x :: rest => x :: dedupGo x rest

/-- `buildExpected` inside the emitted `buildErrorMessage`: sort the
expectations, drop adjacent duplicates, and render "A, B or C" (empty list:
"end of input").  JavaScript's default `Array.sort` compares strings
lexicographically. -/
def buildExpected (failuresExpected : List String) : String :=
  let sorted := jsSort failuresExpected
  let uniq := dedupAdjacent sorted
  match uniq with
  | [] => "end of input"
  | [single] => single
  | more =>
    String.intercalate ", " (more.take (more.length - 1)) ++ " or " ++
      (more.getLastD "")

/-- The emitted `buildErrorMessage()`: "Expected E but A found.", where the
actual character is taken at `Math.max(pos, rightmostMatchFailuresPos)` and
quoted, or "end of input" past the end. -/
def buildErrorMessage (s : PState) : String :=
  let actualPos := max s.pos s.rmPos
  let actual :=
    match s.input.get? actualPos with
    | some c => String.mk (jsQuote [c])
    | none => "end of input"
  "Expected " ++ buildExpected s.rmExp ++ " but " ++ actual ++ " found."

/-! ## The `parse` entry point -/

structure ParseErr : Type where
  message : String
  line : Nat
  column : Nat
deriving DecidableEq

/-- The tail of the emitted `parse(input, startRule)` (grammar template):
initialise the parser state, invoke the start rule's parse function, and
throw `SyntaxError` when the result is `null` or input remains, otherwise
return the result.  The model fixes `startRule` to the grammar's declared
start rule (the emitted default when the argument is omitted). -/
def runParse (g : Grammar) (fuel : Nat) (input : List Char) :
    Option (Except ParseErr Value) :=
  match runRule g fuel g.startRule (initState input) with
  | none => none
  | some (s, r) =>
    let failed : Bool := r = none ∨ s.pos ≠ input.length
    if failed then
      let ep := computeErrorPosition input s.rmPos
      some (.error ⟨buildErrorMessage s, ep.1, ep.2⟩)
    else
      match r with
      | some v => some (.ok v)
      | none => none

/-! ## The template engine (`formatCode`)

`formatCode` interpolates `${name}` / `${name|filter}` references in each
part, re-indents multi-line parts by the whitespace prefix matched by
`/^\s*/` on the (interpolated) part, and joins the parts with newlines. -/

inductive TemplErr : Type where
  | undefinedVariable : String → TemplErr
  | unrecognizedFilter : String → TemplErr
deriving DecidableEq

instance {ε α : Type} [DecidableEq ε] [DecidableEq α] : DecidableEq (Except ε α)
  | .error a, .error b =>
    if h : a = b then isTrue (by rw [h]) else isFalse (by intro hh; cases hh; exact h rfl)
  | .ok a, .ok b =>
    if h : a = b then isTrue (by rw [h]) else isFalse (by intro hh; cases hh; exact h rfl)
  | .error _, .ok _ => isFalse (fun h => Except.noConfusion h)
  | .ok _, .error _ => isFalse (fun h => Except.noConfusion h)

/-- JavaScript's `\s` character class (ECMA-262 WhiteSpace ∪ LineTerminator). -/
def jsWhitespace (c : Char) : Bool :=
  c = ' ' ∨ ('\t' ≤ c ∧ c ≤ '\r') ∨ c = ' ' ∨ c = ' ' ∨
    (' ' ≤ c ∧ c ≤ ' ') ∨ c = ' ' ∨ c = ' ' ∨
    c = ' ' ∨ c = ' ' ∨ c = '　' ∨ c = '﻿'

/-- JavaScript `part.split("\n")`: split at every newline, keeping empty
pieces (`"".split("\n") == [""]`); the result is never empty. -/
def splitNl : List Char → List (List Char)
  | [] => [[]]
  | c :: rest =>
    let r := splitNl rest
    if c = '\n' then [] :: r
    else (c :: r.headD []) :: r.tail

/-- One part of `indentMultilineParts`: a part without a newline is
unchanged; otherwise the match of `/^\s*/` against the whole part is
prepended to every line after the first (`lines.slice(1)`). -/
def indentMultilinePart (p : List Char) : List Char :=
  if ¬ p.contains '\n' then p
  else
    let firstLineWs := p.takeWhile jsWhitespace
    match splitNl p with
    | [] => p
    | l0 :: rest => List.intercalate ['\n'] (l0 :: rest.map (firstLineWs ++ ·))

/-- The indentation step stated by claim C9: the prefix is the leading
whitespace of the part's *first line* (empty when the first line starts with
a non-whitespace character). -/
def claimIndentPart (p : List Char) : List Char :=
  if ¬ p.contains '\n' then p
  else
    let firstLineWs := (p.takeWhile (fun c => !(c == '\n'))).takeWhile jsWhitespace
    match splitNl p with
    | [] => p
    | l0 :: rest => List.intercalate ['\n'] (l0 :: rest.map (firstLineWs ++ ·))

def identStart (c : Char) : Bool :=
  ('a' ≤ c ∧ c ≤ 'z') ∨ ('A' ≤ c ∧ c ≤ 'Z') ∨ c = '_'

def identCont (c : Char) : Bool :=
  identStart c ∨ ('0' ≤ c ∧ c ≤ '9')

/-- Scan `[a-zA-Z_][a-zA-Z0-9_]*` at the head of the list (the maximal
match, as the greedy regular expression takes it). -/
def scanIdent : List Char → Option (List Char × List Char)
  | [] => none
  | c :: rest =>
    if identStart c then
      some (c :: rest.takeWhile identCont, rest.dropWhile identCont)
    else none

/-- Consume the closing `'}'` of an interpolation reference. -/
def expectClose : List Char → Option (List Char)
  | [] => none
  | c :: rem => if c = '}' then some rem else none

/-- Match the tail of the interpolation pattern
`([a-zA-Z_][a-zA-Z0-9_]*)(\|([a-zA-Z_][a-zA-Z0-9_]*))?\}` right after a
`"${"`; returns the variable name, the optional filter name and the rest of
the input.  (The identifier is maximal and `'|'`/`'}'` are not identifier
characters, so the backtracking of the JavaScript regular expression never
changes the outcome.) -/
def parseVarRef (l : List Char) : Option (List Char × Option (List Char) × List Char) :=
  match scanIdent l with
  | none => none
  | some (name, rest) =>
    match rest with
    | [] => none
    | c :: rest₂ =>
      if c = '}' then some (name, none, rest₂)
      else if c = '|' then
        match scanIdent rest₂ with
        | none => none
        | some (filt, rest₃) =>
          match expectClose rest₃ with
          | none => none
          | some rem => some (name, some filt, rem)
      else none

/-- The scan loop of the per-part interpolation
(`/\$\{ident(\|ident)?\}/g`-replacement).  At a position where the pattern
does not match, the character is kept and the scan moves one character to
the right; the replacement text is not re-scanned.  The fuel argument only
bounds the recursion depth: every step consumes at least one character, so
`interpPart` passes the part's length and the fuel never runs out. -/
def interpGo (vars : List (String × String)) : Nat → List Char → Except TemplErr (List Char)
  | 0, l => .ok l
  | fuel + 1, l =>
    match l with
    | [] => .ok []
    | '$' :: '{' :: rest =>
      match parseVarRef rest with
      | some (name, filt, rem) =>
        match vars.lookup (String.mk name) with
        | none => .error (.undefinedVariable (String.mk name))
        | some v =>
          match filt with
          | none => (interpGo vars fuel rem).map (fun t => v.data ++ t)
          | some f =>
            if String.mk f = "string" then
              (interpGo vars fuel rem).map (fun t => jsQuote v.data ++ t)
            else .error (.unrecognizedFilter (String.mk f))
      | none => (interpGo vars fuel ('{' :: rest)).map (fun t => '$' :: t)
    | c :: rest => (interpGo vars fuel rest).map (fun t => c :: t)

def interpPart (vars : List (String × String)) (l : List Char) :
    Except TemplErr (List Char) :=
  interpGo vars l.length l

/-- `formatCode`: interpolate every part, re-indent multi-line parts, join
with newlines.  The variable mapping is the explicit final argument of the
source function. -/
def formatCode (parts : List String) (vars : List (String × String)) :
    Except TemplErr String :=
  match parts.mapM (fun p => interpPart vars p.data) with
  | .error e => .error e
  | .ok ps => .ok (String.mk (List.intercalate ['\n'] (ps.map indentMultilinePart)))

/-- `formatCode` as claim C9 describes it (per-part indentation by the first
line's whitespace prefix). -/
def claimFormat (parts : List String) (vars : List (String × String)) :
    Except TemplErr String :=
  match parts.mapM (fun p => interpPart vars p.data) with
  | .error e => .error e
  | .ok ps => .ok (String.mk (List.intercalate ['\n'] (ps.map claimIndentPart)))


/-! ## The emitter itself

The syntactic AST (`SynExpr`) carries user code as text, exactly as the
grammar parser delivers it to `PEG.compiler.emitter`.  The emission
functions below are translated one-for-one from the source; each returns the
generated text and threads the `UID` counter state in the order the source
mutates it. -/

inductive SynExpr : Type where
  | choice : List SynExpr → SynExpr
  | sequence : List SynExpr → SynExpr
  | labeled : String → SynExpr → SynExpr
  | simple_and : SynExpr → SynExpr
  | simple_not : SynExpr → SynExpr
  | semantic_and : String → SynExpr
  | semantic_not : String → SynExpr
  | opt : SynExpr → SynExpr
  | zero_or_more : SynExpr → SynExpr
  | one_or_more : SynExpr → SynExpr
  | action : SynExpr → String → SynExpr
  | rule_ref : String → SynExpr
  | literal : String → SynExpr
  | any : SynExpr
  | cls : List (Char ⊕ (Char × Char)) → Bool → String → SynExpr

structure SynRule : Type where
  name : String
  displayName : Option String
  expression : SynExpr

structure SynGrammar : Type where
  initializer : Option String
  startRule : String
  rules : List (String × SynRule)

/-- The `UID` counter table (`_counters`); `next` reads the counter for a
given name (0 when absent), returns `name + counter` and post-increments. -/
structure UIDSt : Type where
  counters : List (String × Nat)

def uidNext (u : UIDSt) (pfx : String) : String × UIDSt :=
  let n := (u.counters.lookup pfx).getD 0
  (pfx ++ String.mk (natStr n), ⟨(pfx, n + 1) :: u.counters⟩)

/-- `UID.reset()` clears all counters. -/
def uidReset : UIDSt := ⟨[]⟩

/-- Modelled from the spec: `quoteForRegexpClass` lives in `utils.js`, which
is not part of `src/`; spec 4.4.18 only says a class part is "a single
character (escaped for a class context)".  We backslash-escape the
characters that are special inside a regular-expression character class and
keep everything else verbatim. -/
def quoteForRegexpClass (c : Char) : List Char :=
  if c = '\\' ∨ c = ']' ∨ c = '^' ∨ c = '-' ∨ c = '/' then ['\\', c] else [c]

/-- The regular-expression text the `class` emitter builds (including the
two special cases for empty `parts`). -/
def classRegexpText (parts : List (Char ⊕ (Char × Char))) (inverted : Bool) : String :=
  if parts.length > 0 then
    "/^[" ++ (if inverted then "^" else "") ++
      String.mk ((parts.map fun pt =>
        match pt with
        | .inl c => quoteForRegexpClass c
        | .inr (lo, hi) => quoteForRegexpClass lo ++ ['-'] ++ quoteForRegexpClass hi).flatten) ++
      "]/"
  else if inverted then "/^[\x5cS\x5cs]/" else "/^(?!)/"

/-- The left-to-right allocation of element result variables performed by
the `sequence` emitter before its accumulation loop. -/
def allocResultVars : List SynExpr → UIDSt → (List String × UIDSt)
  | [], u => ([], u)
  | _ :: rest, u =>
    let (v, u₁) := uidNext u "result"
    let (vs, u₂) := allocResultVars rest u₁
    (v :: vs, u₂)

def seqParamTexts : List SynExpr → String → Nat → List String × List String
  | [], _, _ => ([], [])
  | el :: rest, rv, i =>
    let tl := seqParamTexts rest rv (i + 1)
    match el with
    | .labeled label _ =>
      (label :: tl.1, (rv ++ "[" ++ String.mk (natStr i) ++ "]") :: tl.2)
    | _ => tl


/-- The formal/actual parameter lists of the `action` emitter: a labeled
element of a direct sequence contributes its label and `exprResult[i]`, a
directly labeled expression contributes its label and the whole result,
anything else contributes nothing. -/
def actionParamTexts (e : SynExpr) (expressionResultVar : String) :
    List String × List String :=
  match e with
  | .sequence elems => seqParamTexts elems expressionResultVar 0
  | .labeled label _ => ([label], [expressionResultVar])
  | _ => ([], [])


mutual

/-- The per-node emission functions (`choice` through `class` in the
source), dispatched as `buildNodeVisitor` does on the node kind.  Every
`UID.next` call of the source appears here in the same chronological
order. -/
def emitNode : SynExpr → String → UIDSt → Except TemplErr (String × UIDSt)
  | .choice alts, resultVar, u => emitChoiceAlts alts resultVar u
  | .sequence elems, resultVar, u => do
    let (savedPosVar, u₁) := uidNext u "savedPos"
    let (elementResultVars, u₂) := allocResultVars elems u₁
    let base ← formatCode
      ["var ${resultVar} = ${elementResultVarArray};"]
      [("resultVar", resultVar),
       ("elementResultVarArray", "[" ++ String.intercalate ", " elementResultVars ++ "]")]
    let (code, u₃) ← emitSeqElems elems elementResultVars resultVar savedPosVar base u₂
    let out ← formatCode
      ["var ${savedPosVar} = pos;",
       "${code}"]
      [("code", code), ("savedPosVar", savedPosVar)]
    pure (out, u₃)
  | .labeled _ e, resultVar, u => emitNode e resultVar u
  | .simple_and e, resultVar, u => do
    let (savedPosVar, u₁) := uidNext u "savedPos"
    let (savedReportMatchFailuresVar, u₂) := uidNext u₁ "savedReportMatchFailuresVar"
    let (expressionResultVar, u₃) := uidNext u₂ "result"
    let (expressionCode, u₄) ← emitNode e expressionResultVar u₃
    let out ← formatCode
      ["var ${savedPosVar} = pos;",
       "var ${savedReportMatchFailuresVar} = reportMatchFailures;",
       "reportMatchFailures = false;",
       "${expressionCode}",
       "reportMatchFailures = ${savedReportMatchFailuresVar};",
       "if (${expressionResultVar} !== null) \x7b",
       "  var ${resultVar} = \x27\x27;",
       "  pos = ${savedPosVar};",
       "\x7d else \x7b",
       "  var ${resultVar} = null;",
       "\x7d"]
      [("expressionCode", expressionCode),
       ("expressionResultVar", expressionResultVar),
       ("savedPosVar", savedPosVar),
       ("savedReportMatchFailuresVar", savedReportMatchFailuresVar),
       ("resultVar", resultVar)]
    pure (out, u₄)
  | .simple_not e, resultVar, u => do
    let (savedPosVar, u₁) := uidNext u "savedPos"
    let (savedReportMatchFailuresVar, u₂) := uidNext u₁ "savedReportMatchFailuresVar"
    let (expressionResultVar, u₃) := uidNext u₂ "result"
    let (expressionCode, u₄) ← emitNode e expressionResultVar u₃
    let out ← formatCode
      ["var ${savedPosVar} = pos;",
       "var ${savedReportMatchFailuresVar} = reportMatchFailures;",
       "reportMatchFailures = false;",
       "${expressionCode}",
       "reportMatchFailures = ${savedReportMatchFailuresVar};",
       "if (${expressionResultVar} === null) \x7b",
       "  var ${resultVar} = \x27\x27;",
       "\x7d else \x7b",
       "  var ${resultVar} = null;",
       "  pos = ${savedPosVar};",
       "\x7d"]
      [("expressionCode", expressionCode),
       ("expressionResultVar", expressionResultVar),
       ("savedPosVar", savedPosVar),
       ("savedReportMatchFailuresVar", savedReportMatchFailuresVar),
       ("resultVar", resultVar)]
    pure (out, u₄)
  | .semantic_and code, resultVar, u => do
    let out ← formatCode
      ["var ${resultVar} = (function() \x7b${actionCode}\x7d)() ? \x27\x27 : null;"]
      [("actionCode", code), ("resultVar", resultVar)]
    pure (out, u)
  | .semantic_not code, resultVar, u => do
    let out ← formatCode
      ["var ${resultVar} = (function() \x7b${actionCode}\x7d)() ? null : \x27\x27;"]
      [("actionCode", code), ("resultVar", resultVar)]
    pure (out, u)
  | .opt e, resultVar, u => do
    let (expressionResultVar, u₁) := uidNext u "result"
    let (expressionCode, u₂) ← emitNode e expressionResultVar u₁
    let out ← formatCode
      ["${expressionCode}",
       "var ${resultVar} = ${expressionResultVar} !== null ? ${expressionResultVar} : \x27\x27;"]
      [("expressionCode", expressionCode),
       ("expressionResultVar", expressionResultVar),
       ("resultVar", resultVar)]
    pure (out, u₂)
  | .zero_or_more e, resultVar, u => do
    let (expressionResultVar, u₁) := uidNext u "result"
    let (expressionCode, u₂) ← emitNode e expressionResultVar u₁
    let out ← formatCode
      ["var ${resultVar} = [];",
       "${expressionCode}",
       "while (${expressionResultVar} !== null) \x7b",
       "  ${resultVar}.push(${expressionResultVar});",
       "  ${expressionCode}",
       "\x7d"]
      [("expressionCode", expressionCode),
       ("expressionResultVar", expressionResultVar),
       ("resultVar", resultVar)]
    pure (out, u₂)
  | .one_or_more e, resultVar, u => do
    let (expressionResultVar, u₁) := uidNext u "result"
    let (expressionCode, u₂) ← emitNode e expressionResultVar u₁
    let out ← formatCode
      ["${expressionCode}",
       "if (${expressionResultVar} !== null) \x7b",
       "  var ${resultVar} = [];",
       "  while (${expressionResultVar} !== null) \x7b",
       "    ${resultVar}.push(${expressionResultVar});",
       "    ${expressionCode}",
       "  \x7d",
       "\x7d else \x7b",
       "  var ${resultVar} = null;",
       "\x7d"]
      [("expressionCode", expressionCode),
       ("expressionResultVar", expressionResultVar),
       ("resultVar", resultVar)]
    pure (out, u₂)
  | .action e code, resultVar, u => do
    let (expressionResultVar, u₁) := uidNext u "result"
    let ps := actionParamTexts e expressionResultVar
    let (expressionCode, u₂) ← emitNode e expressionResultVar u₁
    let out ← formatCode
      ["${expressionCode}",
       "var ${resultVar} = ${expressionResultVar} !== null",
       "  ? (function(${formalParams}) \x7b${actionCode}\x7d)(${actualParams})",
       "  : null;"]
      [("expressionCode", expressionCode),
       ("expressionResultVar", expressionResultVar),
       ("actionCode", code),
       ("formalParams", String.intercalate ", " ps.1),
       ("actualParams", String.intercalate ", " ps.2),
       ("resultVar", resultVar)]
    pure (out, u₂)
  | .rule_ref name, resultVar, u => do
    let out ← formatCode
      ["var ${resultVar} = ${ruleMethod}();"]
      [("ruleMethod", "parse_" ++ name), ("resultVar", resultVar)]
    pure (out, u)
  | .literal value, resultVar, u => do
    let out ← formatCode
      ["if (input.substr(pos, ${length}) === ${value|string}) \x7b",
       "  var ${resultVar} = ${value|string};",
       "  pos += ${length};",
       "\x7d else \x7b",
       "  var ${resultVar} = null;",
       "  if (reportMatchFailures) \x7b",
       "    matchFailed(${valueQuoted|string});",
       "  \x7d",
       "\x7d"]
      [("value", value),
       ("valueQuoted", String.mk (jsQuote value.data)),
       ("length", String.mk (natStr value.length)),
       ("resultVar", resultVar)]
    pure (out, u)
  | .any, resultVar, u => do
    let out ← formatCode
      ["if (input.length > pos) \x7b",
       "  var ${resultVar} = input.charAt(pos);",
       "  pos++;",
       "\x7d else \x7b",
       "  var ${resultVar} = null;",
       "  if (reportMatchFailures) \x7b",
       "    matchFailed(\x27any character\x27);",
       "  \x7d",
       "\x7d"]
      [("resultVar", resultVar)]
    pure (out, u)
  | .cls parts inverted rawText, resultVar, u => do
    let out ← formatCode
      ["if (input.substr(pos).match(${regexp}) !== null) \x7b",
       "  var ${resultVar} = input.charAt(pos);",
       "  pos++;",
       "\x7d else \x7b",
       "  var ${resultVar} = null;",
       "  if (reportMatchFailures) \x7b",
       "    matchFailed(${rawText|string});",
       "  \x7d",
       "\x7d"]
      [("regexp", classRegexpText parts inverted),
       ("rawText", rawText),
       ("resultVar", resultVar)]
    pure (out, u)

/-- The right-to-left accumulation loop of the `choice` emitter: the source
runs `i` from the last alternative down to the first, allocating that
alternative result variable and emitting its code, wrapping the code
accumulated so far into the else branch.  Recursing on the tail first
reproduces the source chronological `UID` order. -/
def emitChoiceAlts : List SynExpr → String → UIDSt → Except TemplErr (String × UIDSt)
  | [], resultVar, u => do
    let code ← formatCode ["var ${resultVar} = null;"] [("resultVar", resultVar)]
    pure (code, u)
  | a :: rest, resultVar, u => do
    let (code, u₁) ← emitChoiceAlts rest resultVar u
    let (alternativeResultVar, u₂) := uidNext u₁ "result"
    let (alternativeCode, u₃) ← emitNode a alternativeResultVar u₂
    let out ← formatCode
      ["${alternativeCode}",
       "if (${alternativeResultVar} !== null) \x7b",
       "  var ${resultVar} = ${alternativeResultVar};",
       "\x7d else \x7b",
       "  ${code};",
       "\x7d"]
      [("alternativeCode", alternativeCode),
       ("alternativeResultVar", alternativeResultVar),
       ("code", code),
       ("resultVar", resultVar)]
    pure (out, u₃)

/-- The right-to-left accumulation loop of the `sequence` emitter (the
element result variables were allocated left-to-right beforehand and travel
alongside the element list). -/
def emitSeqElems : List SynExpr → List String → String → String → String → UIDSt →
    Except TemplErr (String × UIDSt)
  | [], _, _, _, code, u => pure (code, u)
  | e :: rest, evars, resultVar, savedPosVar, code, u => do
    let (code₁, u₁) ← emitSeqElems rest evars.tail resultVar savedPosVar code u
    let elementResultVar := evars.headD ""
    let (elementCode, u₂) ← emitNode e elementResultVar u₁
    let out ← formatCode
      ["${elementCode}",
       "if (${elementResultVar} !== null) \x7b",
       "  ${code}",
       "\x7d else \x7b",
       "  var ${resultVar} = null;",
       "  pos = ${savedPosVar};",
       "\x7d"]
      [("elementCode", elementCode),
       ("elementResultVar", elementResultVar),
       ("code", code₁),
       ("savedPosVar", savedPosVar),
       ("resultVar", resultVar)]
    pure (out, u₂)

end

/-- The `rule` emission function: reset the `UID` counters, allocate the
rule result variable, build the display-name scaffolding when present, and
fill the `parse_<name>` function template. -/
def emitRule (rule : SynRule) : Except TemplErr String := do
  let u0 := uidReset
  let (resultVar, u1) := uidNext u0 "result"
  let codes ←
    match rule.displayName with
    | some dn => do
      let setCode ← formatCode
        ["var savedReportMatchFailures = reportMatchFailures;",
         "reportMatchFailures = false;"] []
      let restoreCode ← formatCode
        ["reportMatchFailures = savedReportMatchFailures;"] []
      let reportCode ← formatCode
        ["if (reportMatchFailures && ${resultVar} === null) \x7b",
         "  matchFailed(${displayName|string});",
         "\x7d"]
        [("displayName", dn), ("resultVar", resultVar)]
      pure (setCode, restoreCode, reportCode)
    | none => pure ("", "", "")
  let (code, _) ← emitNode rule.expression resultVar u1
  formatCode
    ["function parse_${name}() \x7b",
     "  var cacheKey = \x27${name}@\x27 + pos;",
     "  var cachedResult = cache[cacheKey];",
     "  if (cachedResult) \x7b",
     "    pos = cachedResult.nextPos;",
     "    return cachedResult.result;",
     "  \x7d",
     "  ",
     "  ${setReportMatchFailuresCode}",
     "  ${code}",
     "  ${restoreReportMatchFailuresCode}",
     "  ${reportMatchFailureCode}",
     "  ",
     "  cache[cacheKey] = \x7b",
     "    nextPos: pos,",
     "    result:  ${resultVar}",
     "  \x7d;",
     "  return ${resultVar};",
     "\x7d"]
    [("name", rule.name),
     ("setReportMatchFailuresCode", codes.1),
     ("restoreReportMatchFailuresCode", codes.2.1),
     ("reportMatchFailureCode", codes.2.2),
     ("code", code),
     ("resultVar", resultVar)]

/-- The outer parser-object template of the `grammar` emission function
(one entry per source template line; literal braces and apostrophes are
written with hexadecimal escapes). -/
def grammarTemplate : List String := [
  "(function()\x7b",
  "  /* Generated by PEG.js @VERSION (http://pegjs.majda.cz/). */",
  "  ",
  "  var result = \x7b",
  "    /*",
  "     * Parses the input with a generated parser. If the parsing is successfull,",
  "     * returns a value explicitly or implicitly specified by the grammar from",
  "     * which the parser was generated (see |PEG.buildParser|). If the parsing is",
  "     * unsuccessful, throws |PEG.parser.SyntaxError| describing the error.",
  "     */",
  "    parse: function(input, startRule) \x7b",
  "      var parseFunctions = \x7b",
  "        ${parseFunctionTableItems}",
  "      \x7d;",
  "      ",
  "      if (startRule !== undefined) \x7b",
  "        if (parseFunctions[startRule] === undefined) \x7b",
  "          throw new Error(\"Invalid rule name: \" + quote(startRule) + \".\");",
  "        \x7d",
  "      \x7d else \x7b",
  "        startRule = ${startRule|string};",
  "      \x7d",
  "      ",
  "      var pos = 0;",
  "      var reportMatchFailures = true;",
  "      var rightmostMatchFailuresPos = 0;",
  "      var rightmostMatchFailuresExpected = [];",
  "      var cache = \x7b\x7d;",
  "      ",
  "      function padLeft(input, padding, length) \x7b",
  "        var result = input;",
  "        ",
  "        var padLength = length - input.length;",
  "        for (var i = 0; i < padLength; i++) \x7b",
  "          result = padding + result;",
  "        \x7d",
  "        ",
  "        return result;",
  "      \x7d",
  "      ",
  "      function escape(ch) \x7b",
  "        var charCode = ch.charCodeAt(0);",
  "        ",
  "        if (charCode <= 0xFF) \x7b",
  "          var escapeChar = \x27x\x27;",
  "          var length = 2;",
  "        \x7d else \x7b",
  "          var escapeChar = \x27u\x27;",
  "          var length = 4;",
  "        \x7d",
  "        ",
  "        return \x27\\\\\x27 + escapeChar + padLeft(charCode.toString(16).toUpperCase(), \x270\x27, length);",
  "      \x7d",
  "      ",
  "      function quote(s) \x7b",
  "        /*",
  "         * ECMA-262, 5th ed., 7.8.4: All characters may appear literally in a",
  "         * string literal except for the closing quote character, backslash,",
  "         * carriage return, line separator, paragraph separator, and line feed.",
  "         * Any character may appear in the form of an escape sequence.",
  "         */",
  "        return \x27\"\x27 + s",
  "          .replace(/\\\\/g, \x27\\\\\\\\\x27)            // backslash",
  "          .replace(/\"/g, \x27\\\\\"\x27)              // closing quote character",
  "          .replace(/\\r/g, \x27\\\\r\x27)             // carriage return",
  "          .replace(/\\n/g, \x27\\\\n\x27)             // line feed",
  "          .replace(/[\\x80-\\uFFFF]/g, escape) // non-ASCII characters",
  "          + \x27\"\x27;",
  "      \x7d",
  "      ",
  "      function matchFailed(failure) \x7b",
  "        if (pos < rightmostMatchFailuresPos) \x7b",
  "          return;",
  "        \x7d",
  "        ",
  "        if (pos > rightmostMatchFailuresPos) \x7b",
  "          rightmostMatchFailuresPos = pos;",
  "          rightmostMatchFailuresExpected = [];",
  "        \x7d",
  "        ",
  "        rightmostMatchFailuresExpected.push(failure);",
  "      \x7d",
  "      ",
  "      ${parseFunctionDefinitions}",
  "      ",
  "      function buildErrorMessage() \x7b",
  "        function buildExpected(failuresExpected) \x7b",
  "          failuresExpected.sort();",
  "          ",
  "          var lastFailure = null;",
  "          var failuresExpectedUnique = [];",
  "          for (var i = 0; i < failuresExpected.length; i++) \x7b",
  "            if (failuresExpected[i] !== lastFailure) \x7b",
  "              failuresExpectedUnique.push(failuresExpected[i]);",
  "              lastFailure = failuresExpected[i];",
  "            \x7d",
  "          \x7d",
  "          ",
  "          switch (failuresExpectedUnique.length) \x7b",
  "            case 0:",
  "              return \x27end of input\x27;",
  "            case 1:",
  "              return failuresExpectedUnique[0];",
  "            default:",
  "              return failuresExpectedUnique.slice(0, failuresExpectedUnique.length - 1).join(\x27, \x27)",
  "                + \x27 or \x27",
  "                + failuresExpectedUnique[failuresExpectedUnique.length - 1];",
  "          \x7d",
  "        \x7d",
  "        ",
  "        var expected = buildExpected(rightmostMatchFailuresExpected);",
  "        var actualPos = Math.max(pos, rightmostMatchFailuresPos);",
  "        var actual = actualPos < input.length",
  "          ? quote(input.charAt(actualPos))",
  "          : \x27end of input\x27;",
  "        ",
  "        return \x27Expected \x27 + expected + \x27 but \x27 + actual + \x27 found.\x27;",
  "      \x7d",
  "      ",
  "      function computeErrorPosition() \x7b",
  "        /*",
  "         * The first idea was to use |String.split| to break the input up to the",
  "         * error position along newlines and derive the line and column from",
  "         * there. However IE\x27s |split| implementation is so broken that it was",
  "         * enough to prevent it.",
  "         */",
  "        ",
  "        var line = 1;",
  "        var column = 1;",
  "        var seenCR = false;",
  "        ",
  "        for (var i = 0; i <  rightmostMatchFailuresPos; i++) \x7b",
  "          var ch = input.charAt(i);",
  "          if (ch === \x27\\n\x27) \x7b",
  "            if (!seenCR) \x7b line++; \x7d",
  "            column = 1;",
  "            seenCR = false;",
  "          \x7d else if (ch === \x27\\r\x27 | ch === \x27\\u2028\x27 || ch === \x27\\u2029\x27) \x7b",
  "            line++;",
  "            column = 1;",
  "            seenCR = true;",
  "          \x7d else \x7b",
  "            column++;",
  "            seenCR = false;",
  "          \x7d",
  "        \x7d",
  "        ",
  "        return \x7b line: line, column: column \x7d;",
  "      \x7d",
  "      ",
  "      ${initializerCode}",
  "      ",
  "      var result = parseFunctions[startRule]();",
  "      ",
  "      /*",
  "       * The parser is now in one of the following three states:",
  "       *",
  "       * 1. The parser successfully parsed the whole input.",
  "       *",
  "       *    - |result !== null|",
  "       *    - |pos === input.length|",
  "       *    - |rightmostMatchFailuresExpected| may or may not contain something",
  "       *",
  "       * 2. The parser successfully parsed only a part of the input.",
  "       *",
  "       *    - |result !== null|",
  "       *    - |pos < input.length|",
  "       *    - |rightmostMatchFailuresExpected| may or may not contain something",
  "       *",
  "       * 3. The parser did not successfully parse any part of the input.",
  "       *",
  "       *   - |result === null|",
  "       *   - |pos === 0|",
  "       *   - |rightmostMatchFailuresExpected| contains at least one failure",
  "       *",
  "       * All code following this comment (including called functions) must",
  "       * handle these states.",
  "       */",
  "      if (result === null || pos !== input.length) \x7b",
  "        var errorPosition = computeErrorPosition();",
  "        throw new this.SyntaxError(",
  "          buildErrorMessage(),",
  "          errorPosition.line,",
  "          errorPosition.column",
  "        );",
  "      \x7d",
  "      ",
  "      return result;",
  "    \x7d,",
  "    ",
  "    /* Returns the parser source code. */",
  "    toSource: function() \x7b return this._source; \x7d",
  "  \x7d;",
  "  ",
  "  /* Thrown when a parser encounters a syntax error. */",
  "  ",
  "  result.SyntaxError = function(message, line, column) \x7b",
  "    this.name = \x27SyntaxError\x27;",
  "    this.message = message;",
  "    this.line = line;",
  "    this.column = column;",
  "  \x7d;",
  "  ",
  "  result.SyntaxError.prototype = Error.prototype;",
  "  ",
  "  return result;",
  "\x7d)()"
]

/-- The sorted parse-function table entries of the `grammar` emission
function (`parseFunctionTableItems`: one `"<name>": parse_<name>` per rule,
then `Array.sort`). -/
def tableItems (g : SynGrammar) : List String :=
  jsSort (g.rules.map fun pr => String.mk (jsQuote pr.1.data) ++ ": parse_" ++ pr.1)

/-- The `grammar` emission function: the initializer code, the sorted parse
table, the parse-function definitions in rule-enumeration order, and the
outer template. -/
def emitGrammar (g : SynGrammar) : Except TemplErr String := do
  let initializerCode := match g.initializer with | some code => code | none => ""
  let parseFunctionDefinitions ← g.rules.mapM fun pr => emitRule pr.2
  formatCode grammarTemplate
    [("initializerCode", initializerCode),
     ("parseFunctionTableItems", String.intercalate ",\n" (tableItems g)),
     ("parseFunctionDefinitions", String.intercalate "\n\n" parseFunctionDefinitions),
     ("startRule", g.startRule)]


/-! ## Well-formedness predicates for the semantic claims

`GoodE e` says every semantic action inside `e` returns a non-null value —
the hypothesis under which the fragment contract of the emitter's comment
block holds in full.  `WfG g` additionally requires every rule name to be
free of `'@'`, which makes the string cache keys `"<name>@<pos>"` injective
(rule names produced by the grammar parser are identifiers, so this is true
of every real grammar).  `cacheOK` is the packrat-cache invariant: a cached
entry records a next position at or after the keyed position, and exactly at
it for a null result. -/

inductive GoodE : Expr → Prop where
  | choice : ∀ {alts}, (∀ a ∈ alts, GoodE a) → GoodE (.choice alts)
  | sequence : ∀ {elems}, (∀ a ∈ elems, GoodE a) → GoodE (.sequence elems)
  | labeled : ∀ {l e}, GoodE e → GoodE (.labeled l e)
  | simple_and : ∀ {e}, GoodE e → GoodE (.simple_and e)
  | simple_not : ∀ {e}, GoodE e → GoodE (.simple_not e)
  | semantic_and : ∀ {b}, GoodE (.semantic_and b)
  | semantic_not : ∀ {b}, GoodE (.semantic_not b)
  | opt : ∀ {e}, GoodE e → GoodE (.opt e)
  | zero_or_more : ∀ {e}, GoodE e → GoodE (.zero_or_more e)
  | one_or_more : ∀ {e}, GoodE e → GoodE (.one_or_more e)
  | action : ∀ {e f}, GoodE e → (∀ args, f args ≠ none) → GoodE (.action e f)
  | rule_ref : ∀ {n}, GoodE (.rule_ref n)
  | literal : ∀ {v}, GoodE (.literal v)
  | any : GoodE .any
  | cls : ∀ {p i r}, GoodE (.cls p i r)

def WfG (g : Grammar) : Prop :=
  ∀ pr ∈ g.rules, ('@' ∉ pr.1.data) ∧ GoodE pr.2.expr

def cacheOK (c : List (String × (Nat × Option Value))) : Prop :=
  ∀ name p np r, ('@' ∉ name.data) → c.lookup (ckey name p) = some (np, r) →
    p ≤ np ∧ (r = none → np = p)

/-- The two state conclusions of the fragment contract that need the
`GoodE`/`WfG` hypotheses: the position can only advance, and the cache
invariant is maintained. -/
def ContractInv (s s' : PState) : Prop :=
  s.pos ≤ s'.pos ∧ cacheOK s'.cache

/-- Left-to-right first-match-wins evaluation of ordered-choice
alternatives, as the spec describes it: either there are no alternatives and
the choice fails in place; or the first alternative succeeds and its state
and value are the result, the later alternatives not entering into it; or
the first alternative fails and the result is that of the remaining
alternatives run from the failed state. -/
inductive ChoiceEval (g : Grammar) : Nat → List Expr → PState → PState × Option Value → Prop where
  | nil : ∀ {fuel s}, ChoiceEval g (fuel + 1) [] s (s, none)
  | head_succeeds : ∀ {fuel a rest s s₁ v}, runExpr g fuel a s = some (s₁, some v) →
      ChoiceEval g (fuel + 1) (a :: rest) s (s₁, some v)
  | head_fails : ∀ {fuel a rest s s₁ out}, runExpr g fuel a s = some (s₁, none) →
      ChoiceEval g fuel rest s₁ out → ChoiceEval g (fuel + 1) (a :: rest) s out


/-- The unconditional state facts about every completed run: the input is
never written, and `rightmostMatchFailuresPos` never decreases (it is only
ever written through `matchFailed`). -/
def BasicInv (s s' : PState) : Prop :=
  s'.input = s.input ∧ s.rmPos ≤ s'.rmPos

/-! ## Helper lemmas: decimal keys, cache invariant, state bookkeeping -/

theorem natStrGo_congr : ∀ f₁ f₂ n, n ≤ f₁ → n ≤ f₂ → natStrGo f₁ n = natStrGo f₂ n := by
  intro f₁
  induction f₁ with
  | zero =>
    intro f₂ n h1 _
    interval_cases n
    cases f₂ with
    | zero => rfl
    | succ k => simp [natStrGo]
  | succ k ih =>
    intro f₂ n h1 h2
    cases f₂ with
    | zero =>
      interval_cases n
      simp [natStrGo]
    | succ m =>
      simp only [natStrGo]
      by_cases hn : n < 10
      · rw [if_pos hn, if_pos hn]
      · rw [if_neg hn, if_neg hn]
        have hd2 : n / 10 ≤ m := by
          have := Nat.div_le_self n 10
          omega
        have hd1 : n / 10 ≤ k := by
          have hlt := Nat.div_lt_self (by omega : 0 < n) (by omega : 1 < 10)
          omega
        rw [ih m (n / 10) hd1 hd2]

theorem natStr_eq (n : Nat) :
    natStr n = if n < 10 then [Char.ofNat (48 + n)]
               else natStr (n / 10) ++ [Char.ofNat (48 + n % 10)] := by
  by_cases hn : n < 10
  · rw [if_pos hn]
    unfold natStr
    cases n with
    | zero => simp [natStrGo]
    | succ m => simp only [natStrGo, if_pos hn]
  · rw [if_neg hn]
    unfold natStr
    cases n with
    | zero => omega
    | succ m =>
      simp only [natStrGo, if_neg hn]
      congr 1
      refine natStrGo_congr m ((m + 1) / 10) ((m + 1) / 10) ?_ le_rfl
      have hlt := Nat.div_lt_self (by omega : 0 < m + 1) (by omega : 1 < 10)
      omega

theorem natStr_ne_nil (n : Nat) : natStr n ≠ [] := by
  rw [natStr_eq]
  split <;> simp

theorem digitChar_inj : ∀ a, a < 10 → ∀ b, b < 10 →
    Char.ofNat (48 + a) = Char.ofNat (48 + b) → a = b := by
  decide

theorem natStr_inj : ∀ m n, natStr m = natStr n → m = n := by
  intro m
  induction m using Nat.strong_induction_on with
  | _ m ih =>
    intro n h
    rw [natStr_eq m, natStr_eq n] at h
    by_cases hm : m < 10 <;> by_cases hn : n < 10
    · rw [if_pos hm, if_pos hn] at h
      simp only [List.cons.injEq, and_true] at h
      exact digitChar_inj m hm n hn h
    · rw [if_pos hm, if_neg hn] at h
      have hlen := congrArg List.length h
      simp only [List.length_cons, List.length_nil, List.length_append] at hlen
      have hz : (natStr (n / 10)).length = 0 := by omega
      exact absurd (List.eq_nil_of_length_eq_zero hz) (natStr_ne_nil _)
    · rw [if_neg hm, if_pos hn] at h
      have hlen := congrArg List.length h
      simp only [List.length_cons, List.length_nil, List.length_append] at hlen
      have hz : (natStr (m / 10)).length = 0 := by omega
      exact absurd (List.eq_nil_of_length_eq_zero hz) (natStr_ne_nil _)
    · rw [if_neg hm, if_neg hn] at h
      have h2 := congrArg List.reverse h
      simp only [List.reverse_append, List.reverse_cons, List.reverse_nil,
        List.nil_append, List.singleton_append, List.cons.injEq] at h2
      obtain ⟨hdig, hrev⟩ := h2
      have hpre : natStr (m / 10) = natStr (n / 10) :=
        List.reverse_injective hrev
      have hdiv : m / 10 = n / 10 :=
        ih (m / 10) (Nat.div_lt_self (by omega) (by omega)) _ hpre
      have hmod : m % 10 = n % 10 :=
        digitChar_inj _ (Nat.mod_lt _ (by omega)) _ (Nat.mod_lt _ (by omega)) hdig
      omega

/-- Splitting a list at a distinguished separator absent from both prefixes. -/
theorem append_sep_inj {α : Type} [DecidableEq α] {sep : α} :
    ∀ (l₁ l₂ r₁ r₂ : List α), sep ∉ l₁ → sep ∉ l₂ →
      l₁ ++ sep :: r₁ = l₂ ++ sep :: r₂ → l₁ = l₂ ∧ r₁ = r₂ := by
  intro l₁
  induction l₁ with
  | nil =>
    intro l₂ r₁ r₂ _ hn2 h
    cases l₂ with
    | nil => simpa using h
    | cons b bs =>
      simp only [List.nil_append, List.cons_append, List.cons.injEq] at h
      refine absurd ?_ hn2
      rw [h.1]
      exact List.mem_cons_self b bs
  | cons a as ih =>
    intro l₂ r₁ r₂ hn1 hn2 h
    cases l₂ with
    | nil =>
      simp only [List.cons_append, List.nil_append, List.cons.injEq] at h
      refine absurd ?_ hn1
      rw [← h.1]
      exact List.mem_cons_self a as
    | cons b bs =>
      simp only [List.cons_append, List.cons.injEq] at h
      obtain ⟨hab, htl⟩ := h
      have := ih bs r₁ r₂ (fun hm => hn1 (List.mem_cons_of_mem a hm))
        (fun hm => hn2 (hab ▸ List.mem_cons_of_mem b hm)) htl
      exact ⟨by rw [hab, this.1], this.2⟩

theorem ckey_inj {n₁ n₂ : String} {p₁ p₂ : Nat}
    (h1 : '@' ∉ n₁.data) (h2 : '@' ∉ n₂.data)
    (h : ckey n₁ p₁ = ckey n₂ p₂) : n₁ = n₂ ∧ p₁ = p₂ := by
  unfold ckey at h
  have hdata : n₁.data ++ '@' :: natStr p₁ = n₂.data ++ '@' :: natStr p₂ := by
    have := congrArg String.data h
    simpa [String.data_append] using this
  obtain ⟨hn, hp⟩ := append_sep_inj n₁.data n₂.data _ _ h1 h2 hdata
  refine ⟨?_, natStr_inj _ _ hp⟩
  cases n₁
  cases n₂
  exact congrArg String.mk hn

theorem lookup_mem {α β : Type} [BEq α] [LawfulBEq α] :
    ∀ {l : List (α × β)} {k : α} {v : β}, l.lookup k = some v → (k, v) ∈ l := by
  intro l
  induction l with
  | nil => intro k v h; simp [List.lookup] at h
  | cons hd tl ih =>
    intro k v h
    simp only [List.lookup] at h
    split at h
    · rename_i heq
      simp only [Option.some.injEq] at h
      have hk : k = hd.1 := eq_of_beq heq
      have : (k, v) = hd := by
        rw [hk, ← h]
      rw [this]
      exact List.mem_cons_self hd tl
    · exact List.mem_cons_of_mem hd (ih h)

theorem cacheOK_nil : cacheOK [] := by
  intro name p np r _ h
  simp [List.lookup] at h

theorem cacheOK_insert {c : List (String × (Nat × Option Value))} {name : String}
    {p np : Nat} {r : Option Value} (hc : cacheOK c) (hat : '@' ∉ name.data)
    (h1 : p ≤ np) (h2 : r = none → np = p) :
    cacheOK ((ckey name p, (np, r)) :: c) := by
  intro n q nq rq hn hlook
  simp only [List.lookup] at hlook
  split at hlook
  · rename_i heq
    have hk : ckey n q = ckey name p := eq_of_beq heq
    obtain ⟨hname, hpos⟩ := ckey_inj hn hat hk
    simp only [Option.some.injEq, Prod.mk.injEq] at hlook
    obtain ⟨hnp, hr⟩ := hlook
    subst hnp; subst hr; subst hpos
    exact ⟨h1, h2⟩
  · exact hc n q nq rq hn hlook

theorem matchFailed_fields (s : PState) (f : String) :
    (matchFailed s f).input = s.input ∧ (matchFailed s f).pos = s.pos ∧
    (matchFailed s f).cache = s.cache ∧ (matchFailed s f).reportMF = s.reportMF ∧
    (matchFailed s f).rmPos = max s.rmPos s.pos := by
  unfold matchFailed
  split
  · refine ⟨rfl, rfl, rfl, rfl, ?_⟩
    omega
  · split
    · refine ⟨rfl, rfl, rfl, rfl, ?_⟩
      simp only []
      omega
    · refine ⟨rfl, rfl, rfl, rfl, ?_⟩
      simp only []
      omega

theorem failReport_fields (s : PState) (m : String) :
    (failReport s m).input = s.input ∧ (failReport s m).pos = s.pos ∧
    (failReport s m).cache = s.cache ∧ (failReport s m).reportMF = s.reportMF ∧
    s.rmPos ≤ (failReport s m).rmPos := by
  unfold failReport
  split
  · obtain ⟨h1, h2, h3, h4, h5⟩ := matchFailed_fields s m
    exact ⟨h1, h2, h3, h4, by omega⟩
  · exact ⟨rfl, rfl, rfl, rfl, le_rfl⟩


theorem BasicInv.rfl' (s : PState) : BasicInv s s := ⟨rfl, le_rfl⟩

theorem BasicInv.trans' {s s₁ s₂ : PState} (h1 : BasicInv s s₁) (h2 : BasicInv s₁ s₂) :
    BasicInv s s₂ := ⟨h2.1.trans h1.1, h1.2.trans h2.2⟩

theorem BasicInv.matchFailed' (s : PState) (f : String) : BasicInv s (matchFailed s f) := by
  obtain ⟨h1, -, -, -, h5⟩ := matchFailed_fields s f
  exact ⟨h1, by omega⟩

theorem BasicInv.failReport' (s : PState) (m : String) : BasicInv s (failReport s m) := by
  obtain ⟨h1, -, -, -, h5⟩ := failReport_fields s m
  exact ⟨h1, h5⟩

/-- Unconditional invariants of every interpreter function: a completed run
preserves the input and never moves `rightmostMatchFailuresPos` to the
left. -/
theorem run_basic (g : Grammar) : ∀ fuel : Nat,
    (∀ e s out, runExpr g fuel e s = some out → BasicInv s out.1) ∧
    (∀ alts s out, runAlts g fuel alts s = some out → BasicInv s out.1) ∧
    (∀ elems s out, runElems g fuel elems s = some out → BasicInv s out.1) ∧
    (∀ e s acc out, runLoop g fuel e s acc = some out → BasicInv s out.1) ∧
    (∀ name s out, runRule g fuel name s = some out → BasicInv s out.1) := by
  intro fuel
  induction fuel with
  | zero =>
    refine ⟨?_, ?_, ?_, ?_, ?_⟩
    · intro e s out h
      simp [runExpr] at h
    · intro alts s out h
      simp [runAlts] at h
    · intro elems s out h
      simp [runElems] at h
    · intro e s acc out h
      simp [runLoop] at h
    · intro name s out h
      simp [runRule] at h
  | succ n ih =>
    obtain ⟨ihE, ihA, ihL, ihLoop, ihR⟩ := ih
    have hExpr : ∀ e s out, runExpr g (n + 1) e s = some out → BasicInv s out.1 := by
      intro e s out hrun
      cases e with
      | choice alts =>
        simp only [runExpr] at hrun
        exact ihA _ _ _ hrun
      | sequence elems =>
        simp only [runExpr] at hrun
        split at hrun
        · exact absurd hrun (by simp)
        · rename_i s₁ heq
          cases hrun
          have := ihL _ _ _ heq
          exact ⟨this.1, this.2⟩
        · rename_i s₁ vs heq
          cases hrun
          exact ihL _ _ _ heq
      | labeled l e₁ =>
        simp only [runExpr] at hrun
        exact ihE _ _ _ hrun
      | simple_and e₁ =>
        simp only [runExpr] at hrun
        split at hrun
        · exact absurd hrun (by simp)
        · rename_i s₁ r heq
          have hb : BasicInv { s with reportMF := false } s₁ := ihE _ _ _ heq
          split at hrun <;> cases hrun <;> exact ⟨hb.1, hb.2⟩
      | simple_not e₁ =>
        simp only [runExpr] at hrun
        split at hrun
        · exact absurd hrun (by simp)
        · rename_i s₁ r heq
          have hb : BasicInv { s with reportMF := false } s₁ := ihE _ _ _ heq
          split at hrun <;> cases hrun <;> exact ⟨hb.1, hb.2⟩
      | semantic_and b =>
        simp only [runExpr] at hrun
        cases hrun
        exact BasicInv.rfl' s
      | semantic_not b =>
        simp only [runExpr] at hrun
        cases hrun
        exact BasicInv.rfl' s
      | opt e₁ =>
        simp only [runExpr] at hrun
        split at hrun
        · exact absurd hrun (by simp)
        · rename_i s₁ r heq
          cases hrun
          have hb := ihE _ _ _ heq
          exact hb
      | zero_or_more e₁ =>
        simp only [runExpr] at hrun
        split at hrun
        · exact absurd hrun (by simp)
        · rename_i s₁ acc heq
          cases hrun
          exact ihLoop _ _ _ _ heq
      | one_or_more e₁ =>
        simp only [runExpr] at hrun
        split at hrun
        · exact absurd hrun (by simp)
        · rename_i s₁ heq
          cases hrun
          exact ihE _ _ _ heq
        · rename_i s₁ v heq
          split at hrun
          · exact absurd hrun (by simp)
          · rename_i s₂ acc heq2
            cases hrun
            exact (ihE _ _ _ heq).trans' (ihLoop _ _ _ _ heq2)
      | action e₁ f =>
        simp only [runExpr] at hrun
        split at hrun
        · exact absurd hrun (by simp)
        · rename_i s₁ heq
          cases hrun
          exact ihE _ _ _ heq
        · rename_i s₁ v heq
          cases hrun
          have hb := ihE _ _ _ heq
          exact hb
      | rule_ref name =>
        simp only [runExpr] at hrun
        exact ihR _ _ _ hrun
      | literal v =>
        simp only [runExpr] at hrun
        split at hrun
        · cases hrun
          exact BasicInv.rfl' s
        · cases hrun
          exact BasicInv.failReport' s _
      | any =>
        simp only [runExpr] at hrun
        split at hrun
        · cases hrun
          exact BasicInv.rfl' s
        · cases hrun
          exact BasicInv.failReport' s _
      | cls parts inverted rawText =>
        simp only [runExpr] at hrun
        split at hrun
        · split at hrun
          · cases hrun
            exact BasicInv.rfl' s
          · cases hrun
            exact BasicInv.failReport' s _
        · cases hrun
          exact BasicInv.failReport' s _
    refine ⟨hExpr, ?_, ?_, ?_, ?_⟩
    · intro alts s out hrun
      cases alts with
      | nil =>
        simp only [runAlts] at hrun
        cases hrun
        exact BasicInv.rfl' s
      | cons a rest =>
        simp only [runAlts] at hrun
        split at hrun
        · exact absurd hrun (by simp)
        · rename_i s₁ v heq
          cases hrun
          exact ihE _ _ _ heq
        · rename_i s₁ heq
          exact (ihE _ _ _ heq).trans' (ihA _ _ _ hrun)
    · intro elems s out hrun
      cases elems with
      | nil =>
        simp only [runElems] at hrun
        cases hrun
        exact BasicInv.rfl' s
      | cons e rest =>
        simp only [runElems] at hrun
        split at hrun
        · exact absurd hrun (by simp)
        · rename_i s₁ heq
          cases hrun
          exact ihE _ _ _ heq
        · rename_i s₁ v heq
          split at hrun
          · exact absurd hrun (by simp)
          · rename_i s₂ heq2
            cases hrun
            exact (ihE _ _ _ heq).trans' (ihL _ _ _ heq2)
          · rename_i s₂ vs heq2
            cases hrun
            have hb2 := ihL _ _ _ heq2
            exact (ihE _ _ _ heq).trans' hb2
    · intro e s acc out hrun
      simp only [runLoop] at hrun
      split at hrun
      · exact absurd hrun (by simp)
      · rename_i s₁ heq
        cases hrun
        exact ihE _ _ _ heq
      · rename_i s₁ v heq
        exact (ihE _ _ _ heq).trans' (ihLoop _ _ _ _ hrun)
    · intro name s out hrun
      simp only [runRule] at hrun
      split at hrun
      · exact absurd hrun (by simp)
      · rename_i rule hfind
        split at hrun
        · rename_i np r hhit
          cases hrun
          exact BasicInv.rfl' s
        · rename_i hmiss
          split at hrun
          · rename_i dn hdn
            split at hrun
            · exact absurd hrun (by simp)
            · rename_i s₁ r heq
              have hb : BasicInv { s with reportMF := false } s₁ := ihE _ _ _ heq
              have hb0 : BasicInv s s₁ := ⟨hb.1, hb.2⟩
              split at hrun
              · cases hrun
                obtain ⟨hf1, -, -, -, hf5⟩ :=
                  matchFailed_fields { s₁ with reportMF := s.reportMF } dn
                constructor
                · show (matchFailed { s₁ with reportMF := s.reportMF } dn).input = s.input
                  rw [hf1]
                  exact hb0.1
                · show s.rmPos ≤ (matchFailed { s₁ with reportMF := s.reportMF } dn).rmPos
                  rw [hf5]
                  exact le_trans hb0.2 (le_max_left _ _)
              · cases hrun
                exact ⟨hb0.1, hb0.2⟩
          · rename_i hdn
            split at hrun
            · exact absurd hrun (by simp)
            · rename_i s₁ r heq
              cases hrun
              have hb := ihE _ _ _ heq
              exact ⟨hb.1, hb.2⟩


/-- The conditional fragment-contract invariants: under `WfG g` (identifier
rule names, no null-returning action anywhere in the grammar) and `GoodE`
for the expression at hand, a completed run starting from a coherent cache
can only advance the position, maintains cache coherence, and — the heart of
the fragment contract — restores the entry position exactly when the result
is null. -/
theorem run_invariants (g : Grammar) (hg : WfG g) : ∀ fuel : Nat,
    (∀ e s out, GoodE e → cacheOK s.cache → runExpr g fuel e s = some out →
      s.pos ≤ out.1.pos ∧ cacheOK out.1.cache ∧ (out.2 = none → out.1.pos = s.pos)) ∧
    (∀ alts s out, (∀ a ∈ alts, GoodE a) → cacheOK s.cache → runAlts g fuel alts s = some out →
      s.pos ≤ out.1.pos ∧ cacheOK out.1.cache ∧ (out.2 = none → out.1.pos = s.pos)) ∧
    (∀ elems s out, (∀ a ∈ elems, GoodE a) → cacheOK s.cache → runElems g fuel elems s = some out →
      s.pos ≤ out.1.pos ∧ cacheOK out.1.cache) ∧
    (∀ e s acc out, GoodE e → cacheOK s.cache → runLoop g fuel e s acc = some out →
      s.pos ≤ out.1.pos ∧ cacheOK out.1.cache) ∧
    (∀ name s out, cacheOK s.cache → runRule g fuel name s = some out →
      s.pos ≤ out.1.pos ∧ cacheOK out.1.cache ∧ (out.2 = none → out.1.pos = s.pos)) := by
  intro fuel
  induction fuel with
  | zero =>
    refine ⟨?_, ?_, ?_, ?_, ?_⟩
    · intro e s out _ _ h
      simp [runExpr] at h
    · intro alts s out _ _ h
      simp [runAlts] at h
    · intro elems s out _ _ h
      simp [runElems] at h
    · intro e s acc out _ _ h
      simp [runLoop] at h
    · intro name s out _ h
      simp [runRule] at h
  | succ n ih =>
    obtain ⟨ihE, ihA, ihL, ihLoop, ihR⟩ := ih
    have hExpr : ∀ e s out, GoodE e → cacheOK s.cache → runExpr g (n + 1) e s = some out →
        s.pos ≤ out.1.pos ∧ cacheOK out.1.cache ∧ (out.2 = none → out.1.pos = s.pos) := by
      intro e s out hgood hc hrun
      cases e with
      | choice alts =>
        simp only [runExpr] at hrun
        cases hgood with
        | choice halts => exact ihA _ _ _ halts hc hrun
      | sequence elems =>
        cases hgood with
        | sequence helems =>
          simp only [runExpr] at hrun
          split at hrun
          · exact absurd hrun (by simp)
          · rename_i s₁ heq
            cases hrun
            have hb := ihL _ _ _ helems hc heq
            exact ⟨le_rfl, hb.2, fun _ => rfl⟩
          · rename_i s₁ vs heq
            cases hrun
            have hb := ihL _ _ _ helems hc heq
            exact ⟨hb.1, hb.2, by simp⟩
      | labeled l e₁ =>
        cases hgood with
        | labeled h1 =>
          simp only [runExpr] at hrun
          have hb := ihE _ _ _ h1 hc hrun
          exact hb
      | simple_and e₁ =>
        cases hgood with
        | simple_and h1 =>
          simp only [runExpr] at hrun
          split at hrun
          · exact absurd hrun (by simp)
          · rename_i s₁ r heq
            have hb := ihE e₁ { s with reportMF := false } _ h1 hc heq
            split at hrun
            · cases hrun
              exact ⟨le_rfl, hb.2.1, by simp⟩
            · cases hrun
              exact ⟨le_of_eq (hb.2.2 rfl).symm, hb.2.1, fun _ => hb.2.2 rfl⟩
      | simple_not e₁ =>
        cases hgood with
        | simple_not h1 =>
          simp only [runExpr] at hrun
          split at hrun
          · exact absurd hrun (by simp)
          · rename_i s₁ r heq
            have hb := ihE e₁ { s with reportMF := false } _ h1 hc heq
            split at hrun
            · cases hrun
              exact ⟨le_rfl, hb.2.1, fun _ => rfl⟩
            · cases hrun
              exact ⟨le_of_eq (hb.2.2 rfl).symm, hb.2.1, by simp⟩
      | semantic_and b =>
        simp only [runExpr] at hrun
        cases hrun
        exact ⟨le_rfl, hc, fun _ => rfl⟩
      | semantic_not b =>
        simp only [runExpr] at hrun
        cases hrun
        exact ⟨le_rfl, hc, fun _ => rfl⟩
      | opt e₁ =>
        cases hgood with
        | opt h1 =>
          simp only [runExpr] at hrun
          split at hrun
          · exact absurd hrun (by simp)
          · rename_i s₁ r heq
            cases hrun
            have hb := ihE _ _ _ h1 hc heq
            exact ⟨hb.1, hb.2.1, by simp⟩
      | zero_or_more e₁ =>
        cases hgood with
        | zero_or_more h1 =>
          simp only [runExpr] at hrun
          split at hrun
          · exact absurd hrun (by simp)
          · rename_i s₁ acc heq
            cases hrun
            have hb := ihLoop _ _ _ _ h1 hc heq
            exact ⟨hb.1, hb.2, by simp⟩
      | one_or_more e₁ =>
        cases hgood with
        | one_or_more h1 =>
          simp only [runExpr] at hrun
          split at hrun
          · exact absurd hrun (by simp)
          · rename_i s₁ heq
            cases hrun
            have hb := ihE _ _ _ h1 hc heq
            exact ⟨hb.1, hb.2.1, fun _ => hb.2.2 rfl⟩
          · rename_i s₁ v heq
            split at hrun
            · exact absurd hrun (by simp)
            · rename_i s₂ acc heq2
              cases hrun
              have hb := ihE _ _ _ h1 hc heq
              have hb2 := ihLoop _ _ _ _ h1 hb.2.1 heq2
              exact ⟨hb.1.trans hb2.1, hb2.2, by simp⟩
      | action e₁ f =>
        cases hgood with
        | action h1 hf =>
          simp only [runExpr] at hrun
          split at hrun
          · exact absurd hrun (by simp)
          · rename_i s₁ heq
            cases hrun
            have hb := ihE _ _ _ h1 hc heq
            exact ⟨le_of_eq (hb.2.2 rfl).symm, hb.2.1, fun _ => hb.2.2 rfl⟩
          · rename_i s₁ v heq
            cases hrun
            have hb := ihE _ _ _ h1 hc heq
            exact ⟨hb.1, hb.2.1, fun hnull => absurd hnull (hf _)⟩
      | rule_ref name =>
        simp only [runExpr] at hrun
        exact ihR _ _ _ hc hrun
      | literal v =>
        simp only [runExpr] at hrun
        split at hrun
        · cases hrun
          exact ⟨Nat.le_add_right _ _, hc, by simp⟩
        · cases hrun
          obtain ⟨-, hp, hcc, -, -⟩ := failReport_fields s (String.mk (jsQuote v))
          refine ⟨le_of_eq hp.symm, ?_, fun _ => hp⟩
          rw [hcc]
          exact hc
      | any =>
        simp only [runExpr] at hrun
        split at hrun
        · cases hrun
          exact ⟨Nat.le_succ _, hc, by simp⟩
        · cases hrun
          obtain ⟨-, hp, hcc, -, -⟩ := failReport_fields s "any character"
          refine ⟨le_of_eq hp.symm, ?_, fun _ => hp⟩
          rw [hcc]
          exact hc
      | cls parts inverted rawText =>
        simp only [runExpr] at hrun
        split at hrun
        · split at hrun
          · cases hrun
            exact ⟨Nat.le_succ _, hc, by simp⟩
          · cases hrun
            obtain ⟨-, hp, hcc, -, -⟩ := failReport_fields s rawText
            refine ⟨le_of_eq hp.symm, ?_, fun _ => hp⟩
            rw [hcc]
            exact hc
        · cases hrun
          obtain ⟨-, hp, hcc, -, -⟩ := failReport_fields s rawText
          refine ⟨le_of_eq hp.symm, ?_, fun _ => hp⟩
          rw [hcc]
          exact hc
    refine ⟨hExpr, ?_, ?_, ?_, ?_⟩
    · intro alts s out halts hc hrun
      cases alts with
      | nil =>
        simp only [runAlts] at hrun
        cases hrun
        exact ⟨le_rfl, hc, fun _ => rfl⟩
      | cons a rest =>
        simp only [runAlts] at hrun
        split at hrun
        · exact absurd hrun (by simp)
        · rename_i s₁ v heq
          cases hrun
          have hb := ihE _ _ _ (halts a (List.mem_cons_self a rest)) hc heq
          exact ⟨hb.1, hb.2.1, by simp⟩
        · rename_i s₁ heq
          have hb := ihE _ _ _ (halts a (List.mem_cons_self a rest)) hc heq
          have hpos : s₁.pos = s.pos := hb.2.2 rfl
          have hrest := ihA _ _ _ (fun x hx => halts x (List.mem_cons_of_mem a hx)) hb.2.1 hrun
          exact ⟨hpos ▸ hrest.1, hrest.2.1, fun hnull => by
            rw [hrest.2.2 hnull, hpos]⟩
    · intro elems s out helems hc hrun
      cases elems with
      | nil =>
        simp only [runElems] at hrun
        cases hrun
        exact ⟨le_rfl, hc⟩
      | cons e rest =>
        simp only [runElems] at hrun
        split at hrun
        · exact absurd hrun (by simp)
        · rename_i s₁ heq
          cases hrun
          have hb := ihE _ _ _ (helems e (List.mem_cons_self e rest)) hc heq
          exact ⟨hb.1, hb.2.1⟩
        · rename_i s₁ v heq
          have hb := ihE _ _ _ (helems e (List.mem_cons_self e rest)) hc heq
          split at hrun
          · exact absurd hrun (by simp)
          · rename_i s₂ heq2
            cases hrun
            have hb2 := ihL _ _ _ (fun x hx => helems x (List.mem_cons_of_mem e hx)) hb.2.1 heq2
            exact ⟨hb.1.trans hb2.1, hb2.2⟩
          · rename_i s₂ vs heq2
            cases hrun
            have hb2 := ihL _ _ _ (fun x hx => helems x (List.mem_cons_of_mem e hx)) hb.2.1 heq2
            exact ⟨hb.1.trans hb2.1, hb2.2⟩
    · intro e s acc out hgood hc hrun
      simp only [runLoop] at hrun
      split at hrun
      · exact absurd hrun (by simp)
      · rename_i s₁ heq
        cases hrun
        have hb := ihE _ _ _ hgood hc heq
        exact ⟨hb.1, hb.2.1⟩
      · rename_i s₁ v heq
        have hb := ihE _ _ _ hgood hc heq
        have hrest := ihLoop _ _ _ _ hgood hb.2.1 hrun
        exact ⟨hb.1.trans hrest.1, hrest.2⟩
    · intro name s out hc hrun
      simp only [runRule] at hrun
      split at hrun
      · exact absurd hrun (by simp)
      · rename_i rule hfind
        obtain ⟨hat, hgood⟩ := hg _ (lookup_mem hfind)
        split at hrun
        · rename_i np r hhit
          cases hrun
          have hck := hc name s.pos np r hat hhit
          exact ⟨hck.1, hc, fun hnull => hck.2 hnull⟩
        · rename_i hmiss
          split at hrun
          · rename_i dn hdn
            split at hrun
            · exact absurd hrun (by simp)
            · rename_i s₁ r heq
              have hb := ihE rule.expr { s with reportMF := false } _ hgood hc heq
              have hpos1 : s.pos ≤ s₁.pos := hb.1
              have hnull1 : r = none → s₁.pos = s.pos := hb.2.2
              split at hrun
              · cases hrun
                obtain ⟨-, hp, hcc, -, -⟩ :=
                  matchFailed_fields { s₁ with reportMF := s.reportMF } dn
                refine ⟨?_, ?_, ?_⟩
                · show s.pos ≤ (matchFailed { s₁ with reportMF := s.reportMF } dn).pos
                  rw [hp]
                  exact hpos1
                · refine cacheOK_insert ?_ hat ?_ ?_
                  · show cacheOK (matchFailed { s₁ with reportMF := s.reportMF } dn).cache
                    rw [hcc]
                    exact hb.2.1
                  · show s.pos ≤ (matchFailed { s₁ with reportMF := s.reportMF } dn).pos
                    rw [hp]
                    exact hpos1
                  · intro hnull
                    show (matchFailed { s₁ with reportMF := s.reportMF } dn).pos = s.pos
                    rw [hp]
                    exact hnull1 hnull
                · intro hnull
                  show (matchFailed { s₁ with reportMF := s.reportMF } dn).pos = s.pos
                  rw [hp]
                  exact hnull1 hnull
              · cases hrun
                refine ⟨hpos1, ?_, fun hnull => hnull1 hnull⟩
                exact cacheOK_insert hb.2.1 hat hpos1 hnull1
          · rename_i hdn
            split at hrun
            · exact absurd hrun (by simp)
            · rename_i s₁ r heq
              cases hrun
              have hb := ihE _ _ _ hgood hc heq
              exact ⟨hb.1, cacheOK_insert hb.2.1 hat hb.1 hb.2.2, fun hnull => hb.2.2 hnull⟩


/-! ## Repetition: termination and divergence lemmas -/

/-- If the inner expression always completes (uniformly from fuel `F₀` on),
strictly advances the position on success, and keeps the position within the
input, then the emitted repetition loop completes: `F₀ + k + 1` fuel
suffices when at most `k` positions remain. -/
theorem runLoop_terminates (g : Grammar) (e : Expr) (inp : List Char) (L F₀ : Nat)
    (hadv : ∀ f s₀ s₁ v, s₀.input = inp → runExpr g f e s₀ = some (s₁, some v) →
      s₀.pos < s₁.pos)
    (hterm : ∀ f, F₀ ≤ f → ∀ s₀, s₀.input = inp → s₀.pos ≤ L →
      runExpr g f e s₀ ≠ none)
    (hbound : ∀ f s₀ s₁ r, s₀.input = inp → s₀.pos ≤ L →
      runExpr g f e s₀ = some (s₁, r) → s₁.pos ≤ L) :
    ∀ k F s acc, F₀ + k + 1 ≤ F → s.input = inp → s.pos ≤ L → L - s.pos ≤ k →
      runLoop g F e s acc ≠ none := by
  intro k
  induction k with
  | zero =>
    intro F s acc hF hinp hle hk
    match F, hF with
    | m + 1, hF =>
      have hm : F₀ ≤ m := by omega
      simp only [runLoop]
      cases hq : runExpr g m e s with
      | none => exact absurd hq (hterm m hm s hinp hle)
      | some p =>
        obtain ⟨s₁, r⟩ := p
        cases r with
        | none => simp
        | some v =>
          have h1 := hadv m s s₁ v hinp hq
          have h2 := hbound m s s₁ _ hinp hle hq
          omega
  | succ k ihk =>
    intro F s acc hF hinp hle hk
    match F, hF with
    | m + 1, hF =>
      have hm : F₀ ≤ m := by omega
      simp only [runLoop]
      cases hq : runExpr g m e s with
      | none => exact absurd hq (hterm m hm s hinp hle)
      | some p =>
        obtain ⟨s₁, r⟩ := p
        cases r with
        | none => simp
        | some v =>
          have h1 := hadv m s s₁ v hinp hq
          have h2 := hbound m s s₁ _ hinp hle hq
          have hinp1 : s₁.input = inp := by
            have := ((run_basic g m).1 _ _ _ hq).1
            rw [this, hinp]
          exact ihk m s₁ (acc ++ [v]) (by omega) hinp1 h2 (by omega)

/-- If every completed run of the inner expression from the current position
succeeds without consuming input, the emitted repetition loop never
completes, whatever the fuel. -/
theorem runLoop_diverges (g : Grammar) (e : Expr) (inp : List Char) (p : Nat)
    (hnc : ∀ f s₀ s₁ r, s₀.input = inp → s₀.pos = p →
      runExpr g f e s₀ = some (s₁, r) → r ≠ none ∧ s₁.pos = p) :
    ∀ F s acc, s.input = inp → s.pos = p → runLoop g F e s acc = none := by
  intro F
  induction F with
  | zero => intro s acc _ _; simp [runLoop]
  | succ m ihm =>
    intro s acc hinp hpos
    simp only [runLoop]
    cases hq : runExpr g m e s with
    | none => simp
    | some out =>
      obtain ⟨s₁, r⟩ := out
      obtain ⟨hr, hp1⟩ := hnc m s s₁ r hinp hpos hq
      cases r with
      | none => exact absurd rfl hr
      | some v =>
        have hinp1 : s₁.input = inp := by
          have := ((run_basic g m).1 _ _ _ hq).1
          rw [this, hinp]
        simp only []
        exact ihm s₁ (acc ++ [v]) hinp1 hp1


/-! ## Ordered choice: the emitted nesting computes first-match-wins -/

theorem runAlts_choiceEval (g : Grammar) :
    ∀ fuel alts s out, runAlts g fuel alts s = some out → ChoiceEval g fuel alts s out := by
  intro fuel
  induction fuel with
  | zero =>
    intro alts s out h
    simp [runAlts] at h
  | succ n ih =>
    intro alts s out h
    cases alts with
    | nil =>
      simp only [runAlts] at h
      cases h
      exact .nil
    | cons a rest =>
      simp only [runAlts] at h
      split at h
      · exact absurd h (by simp)
      · rename_i s₁ v heq
        cases h
        exact .head_succeeds heq
      · rename_i s₁ heq
        exact .head_fails heq (ih _ _ _ h)

theorem choiceEval_runAlts (g : Grammar) {fuel alts s out}
    (h : ChoiceEval g fuel alts s out) : runAlts g fuel alts s = some out := by
  induction h with
  | nil => simp [runAlts]
  | head_succeeds heq => simp [runAlts, heq]
  | head_fails heq _ ih =>
    simp only [runAlts, heq]
    exact ih

/-! ## The error-position scan: `seenCR` records a CR-like previous character -/

theorem cepGo_scanGo (input : List Char) :
    ∀ rem i line col (prev : Option Char),
      cepGo input rem i line col (prev.elim false suppressAmended) =
        scanGo suppressAmended input rem i line col prev := by
  intro rem
  induction rem with
  | zero => intro i line col prev; rfl
  | succ m ih =>
    intro i line col prev
    simp only [cepGo, scanGo]
    split
    · rename_i h1
      have hv : (input.get? i).elim false suppressAmended = false := by
        rw [h1]
        decide
      have h3 := ih (i + 1)
        (if prev.elim false suppressAmended = true then line else line + 1) 1 (input.get? i)
      rw [hv] at h3
      exact h3
    · rename_i h1
      split
      · rename_i h2
        have hv : (input.get? i).elim false suppressAmended = true := by
          rcases h2 with h | h | h <;> rw [h] <;> decide
        have h3 := ih (i + 1) (line + 1) 1 (input.get? i)
        rw [hv] at h3
        exact h3
      · rename_i h2
        have hv : (input.get? i).elim false suppressAmended = false := by
          cases hq : input.get? i with
          | none => rfl
          | some c =>
            rw [hq] at h1 h2
            simp only [Option.elim]
            simp only [not_or, Option.some.injEq] at h1 h2
            simp [suppressAmended, h1, h2.1, h2.2.1, h2.2.2]
        have h3 := ih (i + 1) line (col + 1) (input.get? i)
        rw [hv] at h3
        exact h3

/-! ## Re-indentation: the whole-part whitespace prefix agrees with the
first-line prefix whenever the first line has a non-whitespace character -/

theorem takeWhile_ws_firstLine :
    ∀ p : List Char,
      (p.takeWhile (fun c => !(c == '\n'))).any (fun c => !(jsWhitespace c)) = true →
      p.takeWhile jsWhitespace =
        (p.takeWhile (fun c => !(c == '\n'))).takeWhile jsWhitespace := by
  intro p
  induction p with
  | nil => intro h; simp at h
  | cons c p' ih =>
    intro h
    by_cases hnl : c = '\n'
    · subst hnl
      rw [List.takeWhile_cons] at h
      simp at h
    · have hb : ((fun c => !(c == '\n')) c) = true := by simp [hnl]
      by_cases hws : jsWhitespace c = true
      · have h' : (p'.takeWhile (fun c => !(c == '\n'))).any (fun c => !(jsWhitespace c)) = true := by
          rw [List.takeWhile_cons, if_pos hb] at h
          simp only [List.any_cons, hws, Bool.not_true, Bool.false_or] at h
          exact h
        rw [List.takeWhile_cons, if_pos hws]
        rw [List.takeWhile_cons, if_pos hb]
        rw [List.takeWhile_cons, if_pos hws]
        rw [ih h']
      · have hwsf : ¬ (jsWhitespace c = true) := hws
        rw [List.takeWhile_cons, if_neg hwsf]
        rw [List.takeWhile_cons, if_pos hb]
        rw [List.takeWhile_cons, if_neg hwsf]

/-! ## The string sort: total order facts and permutation stability -/

theorem lexLe_total : ∀ a b : List Char, lexLe a b = true ∨ lexLe b a = true := by
  intro a
  induction a with
  | nil => intro b; left; simp [lexLe]
  | cons x xs ih =>
    intro b
    cases b with
    | nil => right; simp [lexLe]
    | cons y ys =>
      rcases lt_trichotomy x y with h | h | h
      · left
        simp [lexLe, h]
      · subst h
        rcases ih ys with h2 | h2
        · left
          simp [lexLe, lt_irrefl, h2]
        · right
          simp [lexLe, lt_irrefl, h2]
      · right
        simp [lexLe, h]

theorem lexLe_trans : ∀ a b c : List Char,
    lexLe a b = true → lexLe b c = true → lexLe a c = true := by
  intro a
  induction a with
  | nil => intro b c _ _; simp [lexLe]
  | cons x xs ih =>
    intro b c h1 h2
    cases b with
    | nil => simp [lexLe] at h1
    | cons y ys =>
      cases c with
      | nil => simp [lexLe] at h2
      | cons z zs =>
        simp only [lexLe] at h1 h2 ⊢
        by_cases hxy : x < y
        · by_cases hyz : y < z
          · rw [if_pos (lt_trans hxy hyz)]
          · rw [if_neg hyz] at h2
            by_cases hzy : z < y
            · simp [if_pos hzy] at h2
            · have : y = z := le_antisymm (not_lt.mp hzy) (not_lt.mp hyz)
              subst this
              rw [if_pos hxy]
        · rw [if_neg hxy] at h1
          by_cases hyx : y < x
          · simp [if_pos hyx] at h1
          · have hxy2 : x = y := le_antisymm (not_lt.mp hyx) (not_lt.mp hxy)
            rw [if_neg hyx] at h1
            subst hxy2
            by_cases hyz : x < z
            · rw [if_pos hyz]
            · rw [if_neg hyz] at h2 ⊢
              by_cases hzy : z < x
              · simp [if_pos hzy] at h2
              · rw [if_neg hzy] at h2 ⊢
                exact ih ys zs h1 h2

theorem lexLe_antisymm : ∀ a b : List Char,
    lexLe a b = true → lexLe b a = true → a = b := by
  intro a
  induction a with
  | nil =>
    intro b _ h2
    cases b with
    | nil => rfl
    | cons y ys => simp [lexLe] at h2
  | cons x xs ih =>
    intro b h1 h2
    cases b with
    | nil => simp [lexLe] at h1
    | cons y ys =>
      simp only [lexLe] at h1 h2
      by_cases hxy : x < y
      · simp [if_neg (lt_asymm hxy), if_pos hxy] at h2
      · rw [if_neg hxy] at h1
        by_cases hyx : y < x
        · simp [if_pos hyx] at h1
        · rw [if_neg hyx] at h1 h2
          rw [if_neg hxy] at h2
          have hx : x = y := le_antisymm (not_lt.mp hyx) (not_lt.mp hxy)
          rw [hx, ih ys h1 h2]

theorem insertSorted_perm (x : String) :
    ∀ l : List String, (insertSorted x l).Perm (x :: l) := by
  intro l
  induction l with
  | nil => simp [insertSorted]
  | cons y rest ih =>
    simp only [insertSorted]
    split
    · exact List.Perm.refl _
    · exact (List.Perm.cons y ih).trans (List.Perm.swap x y rest)

theorem jsSort_perm : ∀ l : List String, (jsSort l).Perm l := by
  intro l
  induction l with
  | nil => simp [jsSort]
  | cons x rest ih =>
    simp only [jsSort, List.foldr]
    exact (insertSorted_perm x _).trans (List.Perm.cons x ih)

theorem insertSorted_sorted (x : String) :
    ∀ l : List String, l.Sorted (fun a b => strLe a b = true) →
      (insertSorted x l).Sorted (fun a b => strLe a b = true) := by
  intro l
  induction l with
  | nil => intro _; simp [insertSorted]
  | cons y rest ih =>
    intro hs
    simp only [insertSorted]
    split
    · rename_i hxy
      refine List.sorted_cons.mpr ⟨?_, hs⟩
      intro b hb
      rcases List.mem_cons.mp hb with hb | hb
      · rw [hb]
        exact hxy
      · exact lexLe_trans _ _ _ hxy ((List.sorted_cons.mp hs).1 b hb)
    · rename_i hxy
      have hyx : strLe y x = true := by
        rcases lexLe_total x.data y.data with h | h
        · exact absurd h hxy
        · exact h
      rw [List.sorted_cons] at hs
      refine List.sorted_cons.mpr ⟨?_, ih hs.2⟩
      intro b hb
      have := (insertSorted_perm x rest).mem_iff.mp hb
      rcases List.mem_cons.mp this with hb2 | hb2
      · rw [hb2]
        exact hyx
      · exact hs.1 b hb2

theorem jsSort_sorted : ∀ l : List String, (jsSort l).Sorted (fun a b => strLe a b = true) := by
  intro l
  induction l with
  | nil => simp [jsSort]
  | cons x rest ih => exact insertSorted_sorted x _ ih

theorem jsSort_eq_of_perm {l₁ l₂ : List String} (h : l₁.Perm l₂) :
    jsSort l₁ = jsSort l₂ := by
  haveI : IsAntisymm String (fun a b => strLe a b = true) :=
    ⟨fun a b h1 h2 => by
      have := lexLe_antisymm a.data b.data h1 h2
      cases a
      cases b
      exact congrArg String.mk this⟩
  haveI : IsTrans String (fun a b => strLe a b = true) :=
    ⟨fun a b c h1 h2 => lexLe_trans a.data b.data c.data h1 h2⟩
  exact List.eq_of_perm_of_sorted
    ((jsSort_perm l₁).trans (h.trans (jsSort_perm l₂).symm))
    (jsSort_sorted l₁) (jsSort_sorted l₂)


/-! ## The claims -/

/-- C5: Rightmost-failure aggregation.  A `matchFailed(f)` call with `pos`
strictly left of `rightmostMatchFailuresPos` has no effect; strictly right,
it moves the position up and restarts the expected list at `[f]`; at the
same position it appends `f`; the new position is `max` of the old and
`pos`, so `rightmostMatchFailuresPos` never decreases — neither in a single
call nor across any completed run of emitted code (`runExpr`), since
`matchFailed` is the only writer of that variable. -/
theorem claim_C5_matchFailed_aggregation :
    (∀ s f, (matchFailed s f).rmPos = max s.rmPos s.pos ∧
      s.rmPos ≤ (matchFailed s f).rmPos ∧
      ((matchFailed s f).rmExp =
        if s.pos < s.rmPos then s.rmExp
        else if s.pos > s.rmPos then [f] else s.rmExp ++ [f]) ∧
      (s.pos < s.rmPos → matchFailed s f = s) ∧
      (matchFailed s f).pos = s.pos ∧ (matchFailed s f).input = s.input ∧
      (matchFailed s f).cache = s.cache ∧ (matchFailed s f).reportMF = s.reportMF) ∧
    (∀ g fuel e s out, runExpr g fuel e s = some out → s.rmPos ≤ out.1.rmPos) := by
  constructor
  · intro s f
    obtain ⟨h1, h2, h3, h4, h5⟩ := matchFailed_fields s f
    refine ⟨h5, by omega, ?_, ?_, h2, h1, h3, h4⟩
    · unfold matchFailed
      split
      · rfl
      · split
        · rfl
        · rfl
    · intro hlt
      unfold matchFailed
      rw [if_pos hlt]
  · intro g fuel e s out hrun
    exact ((run_basic g fuel).1 e s out hrun).2

/-- C5 witness: the no-effect case at a strictly smaller position, and the
monotonicity of `rightmostMatchFailuresPos` across a concrete emitted
fragment run (a failing `any` at end of input, which records a failure). -/
theorem claim_C5_witness :
    matchFailed ⟨['a'], 0, true, 1, ["q"], []⟩ "f" = ⟨['a'], 0, true, 1, ["q"], []⟩ ∧
    (initState []).rmPos ≤ (⟨[], 0, true, 0, ["any character"], []⟩ : PState).rmPos := by
  constructor
  · exact (claim_C5_matchFailed_aggregation.1 ⟨['a'], 0, true, 1, ["q"], []⟩ "f").2.2.2.1
      (by decide)
  · exact claim_C5_matchFailed_aggregation.2 ⟨"s", []⟩ 1 .any (initState [])
      (⟨[], 0, true, 0, ["any character"], []⟩, none) (by decide)

/-- C7 counterexample: the claim says only a preceding `'\r'` suppresses the
line increment of a following `'\n'`, but the emitted `computeErrorPosition`
sets its `seenCR` flag after `' '` and `' '` as well.  On the
input U+2028 followed by `'\n'` with the rightmost failure position 2 the
code reports line 2 while the claimed scan reports line 3. -/
theorem claim_C7_counterexample :
    computeErrorPosition [' ', '\n'] 2 = (2, 1) ∧
    scanLineCol suppressClaim [' ', '\n'] 2 = (3, 1) ∧
    ((2, 1) : Nat × Nat) ≠ (3, 1) := by
  refine ⟨by decide, by decide, by decide⟩

/-- C7 (amended): `computeErrorPosition` returns the 1-based line and column
of the rightmost failure offset, scanning from offset 0 and recognising
`'\n'`, `'\r'`, U+2028 and U+2029 as line terminators, where a `'\n'` does
not advance the line again when the immediately preceding character was
`'\r'`, U+2028 or U+2029 (it still resets the column). -/
theorem claim_C7_error_position_amended :
    ∀ input rmPos, computeErrorPosition input rmPos = scanLineCol suppressAmended input rmPos := by
  intro input rmPos
  exact cepGo_scanGo input rmPos 0 1 1 none

/-- C9 counterexample: for a part whose first line is entirely whitespace
the code's `/^\s*/` prefix (matched against the whole part, across the
newline) differs from the claimed "leading whitespace prefix of the part's
first line": on the part `"\nc"` the code prepends `"\n"` to the second
line, giving `"a\n\n\nc"`, while the claim predicts `"a\n\nc"`. -/
theorem claim_C9_counterexample :
    formatCode ["a", "${x}"] [("x", "\nc")] = .ok "a\n\n\nc" ∧
    claimFormat ["a", "${x}"] [("x", "\nc")] = .ok "a\n\nc" ∧
    (Except.ok "a\n\n\nc" : Except TemplErr String) ≠ .ok "a\n\nc" := by
  refine ⟨by decide, by decide, by decide⟩

/-- C9 (amended): parts without a newline are unchanged; for a part with a
newline the prefix prepended to the later lines is the longest whitespace
run at the start of the whole part, which coincides with the first line's
whitespace prefix whenever the first line contains a non-whitespace
character; the claim's concrete instance holds. -/
theorem claim_C9_indent_amended :
    (∀ p : List Char, p.contains '\n' = false → indentMultilinePart p = p) ∧
    (∀ p : List Char,
      (p.takeWhile (fun c => !(c == '\n'))).any (fun c => !(jsWhitespace c)) = true →
      indentMultilinePart p = claimIndentPart p) ∧
    formatCode ["a", "${x}"] [("x", "  b\nc")] = .ok "a\n  b\n  c" := by
  refine ⟨?_, ?_, by decide⟩
  · intro p h
    unfold indentMultilinePart
    rw [if_pos]
    simpa using h
  · intro p h
    by_cases hc : p.contains '\n' = true
    · unfold indentMultilinePart claimIndentPart
      rw [if_neg (by simpa using hc), if_neg (by simpa using hc)]
      rw [takeWhile_ws_firstLine p h]
    · unfold indentMultilinePart claimIndentPart
      have hc2 : p.contains '\n' = false := by
        cases hq : p.contains '\n'
        · rfl
        · exact absurd hq hc
      rw [if_pos (by simpa using hc2), if_pos (by simpa using hc2)]

/-- C9 witness: the unchanged single-line case and the agreeing multi-line
case with a non-whitespace first line. -/
theorem claim_C9_amended_witness :
    indentMultilinePart "ab".data = "ab".data ∧
    indentMultilinePart "  b\nc".data = claimIndentPart "  b\nc".data := by
  constructor
  · exact claim_C9_indent_amended.1 _ (by decide)
  · exact claim_C9_indent_amended.2.1 _ (by decide)


/-- C1 counterexample: an `action` node whose user code returns `null`
violates the fragment contract.  The emitted action fragment is
`exprResult !== null ? (fn)(...) : null` after the expression fragment; the
expression consumed input, the user function returned `null`, so the result
variable is `null` while `pos` has advanced from 0 to 1 instead of being
restored. -/
theorem claim_C1_counterexample :
    runExpr ⟨"s", []⟩ 3 (.action (.literal ['a']) (fun _ => none)) (initState ['a']) =
      some (⟨['a'], 1, true, 0, [], []⟩, none) ∧
    (initState ['a']).pos = 0 ∧ (1 : Nat) ≠ 0 := by
  refine ⟨by decide, by decide, by decide⟩

/-- C1 (amended): Fragment Contract.  For every operator node kind, input
and starting position, a completed emitted fragment either succeeds —
advancing `pos` past the consumed input (possibly zero characters) with a
non-null result — or fails, leaving `pos` exactly as on entry with a null
result, provided every semantic action reachable from the node and from the
grammar's rules returns a non-null value; an action node whose user code
returns null instead yields a null result while `pos` stays advanced past
the expression's match. -/
theorem claim_C1_fragment_contract_amended :
    ∀ g fuel e s s' r, WfG g → GoodE e → cacheOK s.cache →
      runExpr g fuel e s = some (s', r) →
      (r = none → s'.pos = s.pos) ∧ (r ≠ none → s.pos ≤ s'.pos) ∧
      s'.input = s.input ∧ cacheOK s'.cache := by
  intro g fuel e s s' r hg hgood hc hrun
  have h1 := (run_invariants g hg fuel).1 e s (s', r) hgood hc hrun
  have h2 := (run_basic g fuel).1 e s (s', r) hrun
  exact ⟨h1.2.2, fun _ => h1.1, h2.1, h1.2.1⟩

/-- C1 witness: the contract at a failing literal — the emitted fragment
left `pos` at the entry position 0. -/
theorem claim_C1_amended_witness :
    (⟨['b'], 0, true, 0, ["\"a\""], []⟩ : PState).pos = (initState ['b']).pos :=
  (claim_C1_fragment_contract_amended ⟨"s", [("s", ⟨none, .literal ['a']⟩)]⟩ 2
    (.literal ['a']) (initState ['b']) ⟨['b'], 0, true, 0, ["\"a\""], []⟩ none
    (by
      intro pr hpr
      simp only [List.mem_singleton] at hpr
      subst hpr
      exact ⟨by decide, GoodE.literal⟩)
    GoodE.literal cacheOK_nil (by decide)).1 rfl

/-- C4: Ordered choice.  The nested fragment the `choice` emitter builds
computes exactly the left-to-right first-match-wins evaluation
(`ChoiceEval`, the spec's description): a succeeding first alternative
determines the result without the later alternatives entering into it, a
failing first alternative hands its state to the rest, and when every
alternative fails the result is null with `pos` unchanged (under the
fragment-contract hypotheses). -/
theorem claim_C4_choice_first_match :
    (∀ g fuel alts s out,
      runExpr g (fuel + 1) (.choice alts) s = some out ↔ ChoiceEval g fuel alts s out) ∧
    (∀ g fuel (a : Expr) rest s s₁ v, runExpr g fuel a s = some (s₁, some v) →
      runExpr g (fuel + 2) (.choice (a :: rest)) s = some (s₁, some v)) ∧
    (∀ g fuel (a : Expr) rest s s₁, runExpr g fuel a s = some (s₁, none) →
      runExpr g (fuel + 2) (.choice (a :: rest)) s = runAlts g fuel rest s₁) ∧
    (∀ g fuel alts s out, WfG g → (∀ a ∈ alts, GoodE a) → cacheOK s.cache →
      runExpr g (fuel + 1) (.choice alts) s = some out → out.2 = none →
      out.1.pos = s.pos) := by
  refine ⟨?_, ?_, ?_, ?_⟩
  · intro g fuel alts s out
    constructor
    · intro h
      simp only [runExpr] at h
      exact runAlts_choiceEval g fuel alts s out h
    · intro h
      simp only [runExpr]
      exact choiceEval_runAlts g h
  · intro g fuel a rest s s₁ v h
    simp only [runExpr, runAlts, h]
  · intro g fuel a rest s s₁ h
    simp only [runExpr, runAlts, h]
  · intro g fuel alts s out hg halts hc hrun hnull
    exact ((run_invariants g hg (fuel + 1)).1 (.choice alts) s out
      (GoodE.choice halts) hc hrun).2.2 hnull

/-- C4 witness: on input `"ab"` the choice `"a" / "ab"` returns the first
alternative's match `"a"` (pos 1) whatever the remaining alternatives, and a
choice of two failing literals leaves `pos` at 0. -/
theorem claim_C4_witness :
    runExpr ⟨"s", []⟩ 3 (.choice [.literal ['a'], .literal ['a', 'b']]) (initState ['a', 'b']) =
      some (⟨['a', 'b'], 1, true, 0, [], []⟩, some (.str ['a'])) ∧
    (⟨['b'], 0, true, 0, ["\"a\""], []⟩ : PState).pos = (initState ['b']).pos := by
  constructor
  · exact claim_C4_choice_first_match.2.1 ⟨"s", []⟩ 1 (.literal ['a']) [.literal ['a', 'b']]
      (initState ['a', 'b']) ⟨['a', 'b'], 1, true, 0, [], []⟩ (.str ['a']) (by decide)
  · exact claim_C4_choice_first_match.2.2.2 ⟨"s", []⟩ 2 [.literal ['a']] (initState ['b'])
      (⟨['b'], 0, true, 0, ["\"a\""], []⟩, none)
      (by intro pr hpr; simp at hpr)
      (by
        intro a ha
        simp only [List.mem_singleton] at ha
        subst ha
        exact GoodE.literal)
      cacheOK_nil (by decide) rfl


/-- C2: Packrat cache coherence.  (1) A call to `parse_<name>` whose key
`"<name>@<pos>"` is cached returns the cached result and sets `pos` to the
cached next position, touching nothing else.  (2) After any completed call,
the cache maps the call's key to the call's final position and result.
(3) Hence a later call to the same rule at the same position — from any
state whose cache still contains the first call's entries — returns the
same result value and the same final position. -/
theorem claim_C2_packrat_cache :
    (∀ g fuel name (s : PState) rule np r, g.rules.lookup name = some rule →
      s.cache.lookup (ckey name s.pos) = some (np, r) →
      runRule g (fuel + 1) name s = some ({ s with pos := np }, r)) ∧
    (∀ g fuel name (s s' : PState) r, runRule g fuel name s = some (s', r) →
      s'.cache.lookup (ckey name s.pos) = some (s'.pos, r)) ∧
    (∀ g fuel₁ fuel₂ name (s s₂ s' : PState) r rule, g.rules.lookup name = some rule →
      runRule g fuel₁ name s = some (s', r) → s₂.pos = s.pos →
      (∀ k v, s'.cache.lookup k = some v → s₂.cache.lookup k = some v) →
      runRule g (fuel₂ + 1) name s₂ = some ({ s₂ with pos := s'.pos }, r)) := by
  have hit : ∀ g fuel name (s : PState) rule np r, g.rules.lookup name = some rule →
      s.cache.lookup (ckey name s.pos) = some (np, r) →
      runRule g (fuel + 1) name s = some ({ s with pos := np }, r) := by
    intro g fuel name s rule np r hfind hhit
    simp only [runRule, hfind, hhit]
  have post : ∀ g fuel name (s s' : PState) r, runRule g fuel name s = some (s', r) →
      s'.cache.lookup (ckey name s.pos) = some (s'.pos, r) := by
    intro g fuel name s s' r hrun
    cases fuel with
    | zero => simp [runRule] at hrun
    | succ n =>
      simp only [runRule] at hrun
      split at hrun
      · exact absurd hrun (by simp)
      · rename_i rule hfind
        split at hrun
        · rename_i np r₀ hhit
          simp only [Option.some.injEq, Prod.mk.injEq] at hrun
          obtain ⟨hs, hr⟩ := hrun
          subst hs
          subst hr
          simpa using hhit
        · rename_i hmiss
          split at hrun
          · rename_i dn hdn
            split at hrun
            · exact absurd hrun (by simp)
            · rename_i s₁ r₀ heq
              simp only [Option.some.injEq, Prod.mk.injEq] at hrun
              obtain ⟨hs, hr⟩ := hrun
              subst hs
              subst hr
              simp [List.lookup]
          · rename_i hdn
            split at hrun
            · exact absurd hrun (by simp)
            · rename_i s₁ r₀ heq
              simp only [Option.some.injEq, Prod.mk.injEq] at hrun
              obtain ⟨hs, hr⟩ := hrun
              subst hs
              subst hr
              simp [List.lookup]
  refine ⟨hit, post, ?_⟩
  intro g fuel₁ fuel₂ name s s₂ s' r rule hfind hrun hpos hkeep
  have h1 := post g fuel₁ name s s' r hrun
  have h2 := hkeep _ _ h1
  rw [← hpos] at h2
  exact hit g fuel₂ name s₂ rule s'.pos r hfind h2

/-- C2 witness: a cache hit restores the stored position and result, and a
completed first call stores its final position and result under its key. -/
theorem claim_C2_witness :
    runRule ⟨"s", [("s", ⟨none, .literal ['a']⟩)]⟩ 5 "s"
        ⟨['x'], 0, true, 0, [], [(ckey "s" 0, (7, some (.str ['q'])))]⟩ =
      some (⟨['x'], 7, true, 0, [], [(ckey "s" 0, (7, some (.str ['q'])))]⟩, some (.str ['q'])) ∧
    (⟨['a'], 1, true, 0, [],
        [(ckey "s" 0, (1, some (.str ['a'])))]⟩ : PState).cache.lookup (ckey "s" 0) =
      some (1, some (.str ['a'])) := by
  constructor
  · exact claim_C2_packrat_cache.1 ⟨"s", [("s", ⟨none, .literal ['a']⟩)]⟩ 4 "s"
      ⟨['x'], 0, true, 0, [], [(ckey "s" 0, (7, some (.str ['q'])))]⟩
      ⟨none, .literal ['a']⟩ 7 (some (.str ['q'])) rfl (by decide)
  · exact claim_C2_packrat_cache.2.1 ⟨"s", [("s", ⟨none, .literal ['a']⟩)]⟩ 3 "s"
      (initState ['a']) ⟨['a'], 1, true, 0, [], [(ckey "s" 0, (1, some (.str ['a'])))]⟩
      (some (.str ['a'])) (by decide)

/-- C3: the emitted `parse` entry point throws `SyntaxError` if and only if
the start rule's result is null or the final position differs from the
input length; when it does not throw, it returns the start rule's result
unchanged. -/
theorem claim_C3_parse_error_iff :
    ∀ g fuel inp (s' : PState) r,
      runRule g fuel g.startRule (initState inp) = some (s', r) →
      ((∃ e, runParse g fuel inp = some (.error e)) ↔ (r = none ∨ s'.pos ≠ inp.length)) ∧
      (∀ v, r = some v → s'.pos = inp.length → runParse g fuel inp = some (.ok v)) := by
  intro g fuel inp s' r hrun
  constructor
  · constructor
    · intro ⟨e, he⟩
      by_cases hP : r = none ∨ s'.pos ≠ inp.length
      · exact hP
      · exfalso
        push_neg at hP
        obtain ⟨hr, hlen⟩ := hP
        cases r with
        | none => exact hr rfl
        | some v =>
          simp only [runParse, hrun] at he
          rw [if_neg] at he
          · simp at he
          · simp [hlen]
    · intro hP
      refine ⟨⟨buildErrorMessage s', (computeErrorPosition inp s'.rmPos).1,
        (computeErrorPosition inp s'.rmPos).2⟩, ?_⟩
      simp only [runParse, hrun]
      rw [if_pos]
      · simp [hP]
  · intro v hv hlen
    subst hv
    simp only [runParse, hrun]
    rw [if_neg]
    · simp [hlen]

/-- C3 witness: a one-literal grammar on its own input returns the match; on
a too-long input it throws. -/
theorem claim_C3_witness :
    runParse ⟨"s", [("s", ⟨none, .literal ['a']⟩)]⟩ 3 ['a'] = some (.ok (.str ['a'])) ∧
    (∃ e, runParse ⟨"s", [("s", ⟨none, .literal ['a']⟩)]⟩ 3 ['a', 'b'] = some (.error e)) := by
  constructor
  · exact (claim_C3_parse_error_iff ⟨"s", [("s", ⟨none, .literal ['a']⟩)]⟩ 3 ['a']
      ⟨['a'], 1, true, 0, [], [(ckey "s" 0, (1, some (.str ['a'])))]⟩ (some (.str ['a']))
      (by decide)).2 (.str ['a']) rfl (by decide)
  · exact (claim_C3_parse_error_iff ⟨"s", [("s", ⟨none, .literal ['a']⟩)]⟩ 3 ['a', 'b']
      ⟨['a', 'b'], 1, true, 0, [], [(ckey "s" 0, (1, some (.str ['a'])))]⟩ (some (.str ['a']))
      (by decide)).1.mpr (by decide)

/-- C8 counterexample: the emitted report step is guarded by the (restored)
`reportMatchFailures`, which the claim omits: a display-named rule invoked
while `reportMatchFailures` is false whose body fails does not call
`matchFailed(displayName)` — the expected list stays empty instead of
receiving `"thing"`. -/
theorem claim_C8_counterexample :
    runRule ⟨"s", [("s", ⟨some "thing", .literal ['a']⟩)]⟩ 3 "s"
        ⟨['b'], 0, false, 0, [], []⟩ =
      some (⟨['b'], 0, false, 0, [], [(ckey "s" 0, (0, none))]⟩, none) ∧
    "thing" ∉ (⟨['b'], 0, false, 0, [], [(ckey "s" 0, (0, none))]⟩ : PState).rmExp := by
  refine ⟨by decide, by decide⟩

/-- C8 (amended): Display-name reporting.  On a cache miss, a rule with a
display name runs its body with `reportMatchFailures` saved and cleared,
restores the flag afterwards, and calls `matchFailed(displayName)` exactly
when the restored flag is true and the body's result is null; a rule
without a display name runs its body directly with none of these steps. -/
theorem claim_C8_display_name_amended :
    (∀ g fuel name (s : PState) rule dn s₁ r, g.rules.lookup name = some rule →
      rule.displayName = some dn →
      s.cache.lookup (ckey name s.pos) = none →
      runExpr g fuel rule.expr { s with reportMF := false } = some (s₁, r) →
      ∃ out : PState, runRule g (fuel + 1) name s = some (out, r) ∧
        out.reportMF = s.reportMF ∧ out.pos = s₁.pos ∧
        (s.reportMF = true ∧ r = none →
          out.rmExp = (matchFailed { s₁ with reportMF := s.reportMF } dn).rmExp ∧
          out.rmPos = (matchFailed { s₁ with reportMF := s.reportMF } dn).rmPos) ∧
        (¬ (s.reportMF = true ∧ r = none) →
          out.rmExp = s₁.rmExp ∧ out.rmPos = s₁.rmPos)) ∧
    (∀ g fuel name (s : PState) rule s₁ r, g.rules.lookup name = some rule →
      rule.displayName = none →
      s.cache.lookup (ckey name s.pos) = none →
      runExpr g fuel rule.expr s = some (s₁, r) →
      runRule g (fuel + 1) name s =
        some ({ s₁ with cache := (ckey name s.pos, (s₁.pos, r)) :: s₁.cache }, r)) := by
  constructor
  · intro g fuel name s rule dn s₁ r hfind hdn hmiss hbody
    simp only [runRule, hfind, hmiss, hdn, hbody]
    by_cases hrep : s.reportMF = true ∧ r = none
    · rw [if_pos (by simpa using hrep)]
      refine ⟨_, rfl, ?_, ?_, fun _ => ⟨rfl, rfl⟩, fun hn => absurd hrep hn⟩
      · obtain ⟨-, -, -, h4, -⟩ := matchFailed_fields { s₁ with reportMF := s.reportMF } dn
        simpa using h4
      · obtain ⟨-, h2, -, -, -⟩ := matchFailed_fields { s₁ with reportMF := s.reportMF } dn
        simpa using h2
    · rw [if_neg (by simpa using hrep)]
      exact ⟨_, rfl, rfl, rfl, fun hy => absurd hy hrep, fun _ => ⟨rfl, rfl⟩⟩
  · intro g fuel name s rule s₁ r hfind hdn hmiss hbody
    simp only [runRule, hfind, hmiss, hdn, hbody]

/-- C8 witness: a display-named rule whose body fails while reporting is on
ends with `"thing"` recorded; a plain rule stores straight into the
cache. -/
theorem claim_C8_amended_witness :
    (∃ out : PState,
      runRule ⟨"s", [("s", ⟨some "thing", .literal ['a']⟩)]⟩ 3 "s" (initState ['b']) =
        some (out, none) ∧
      out.reportMF = (initState ['b']).reportMF ∧
      out.pos = (⟨['b'], 0, false, 0, [], []⟩ : PState).pos ∧
      ((initState ['b']).reportMF = true ∧ (none : Option Value) = none →
        out.rmExp = (matchFailed
          { (⟨['b'], 0, false, 0, [], []⟩ : PState) with
            reportMF := (initState ['b']).reportMF } "thing").rmExp ∧
        out.rmPos = (matchFailed
          { (⟨['b'], 0, false, 0, [], []⟩ : PState) with
            reportMF := (initState ['b']).reportMF } "thing").rmPos) ∧
      (¬ ((initState ['b']).reportMF = true ∧ (none : Option Value) = none) →
        out.rmExp = (⟨['b'], 0, false, 0, [], []⟩ : PState).rmExp ∧
        out.rmPos = (⟨['b'], 0, false, 0, [], []⟩ : PState).rmPos)) := by
  exact claim_C8_display_name_amended.1 ⟨"s", [("s", ⟨some "thing", .literal ['a']⟩)]⟩ 2 "s"
    (initState ['b']) ⟨some "thing", .literal ['a']⟩ "thing"
    ⟨['b'], 0, false, 0, [], []⟩ none rfl (by decide) (by decide) (by decide)


set_option maxRecDepth 40000 in
/-- C6 counterexample: only the parse-function *table* is sorted; the parse
function *definitions* are emitted in rule-enumeration order, so two
enumeration orders of the same rules mapping (here `a, b` versus `b, a`)
produce different parser source strings. -/
theorem claim_C6_counterexample :
    (([("a", (⟨"a", none, .literal "x"⟩ : SynRule)), ("b", ⟨"b", none, .literal "y"⟩)] :
        List (String × SynRule)).Perm
      [("b", ⟨"b", none, .literal "y"⟩), ("a", ⟨"a", none, .literal "x"⟩)]) ∧
    emitGrammar ⟨none, "a", [("a", ⟨"a", none, .literal "x"⟩), ("b", ⟨"b", none, .literal "y"⟩)]⟩ ≠
      emitGrammar ⟨none, "a", [("b", ⟨"b", none, .literal "y"⟩), ("a", ⟨"a", none, .literal "x"⟩)]⟩ := by
  refine ⟨List.Perm.swap _ _ _, fun h => ?_⟩
  have h2 := congrArg (fun x : Except TemplErr String =>
    ((x.toOption.getD "").data.drop 2700).take 30) h
  exact absurd h2 (by decide)

/-- C6 (amended): what the emitter does canonicalize is order-independent —
under any two enumeration orders of the same rules mapping the sorted
parse-function table is identical, and the emitted per-rule definitions are
a permutation of one another (each rule's text is independent of its
position because the UID counters are reset per rule). -/
theorem claim_C6_determinism_amended :
    (∀ g₁ g₂ : SynGrammar, g₁.rules.Perm g₂.rules → tableItems g₁ = tableItems g₂) ∧
    (∀ g₁ g₂ : SynGrammar, g₁.rules.Perm g₂.rules →
      (g₁.rules.map fun pr => emitRule pr.2).Perm (g₂.rules.map fun pr => emitRule pr.2)) := by
  constructor
  · intro g₁ g₂ h
    show jsSort _ = jsSort _
    exact jsSort_eq_of_perm (h.map _)
  · intro g₁ g₂ h
    exact h.map _

/-- C6 witness: for the swapped two-rule mapping of the counterexample the
sorted tables coincide. -/
theorem claim_C6_amended_witness :
    tableItems ⟨none, "a", [("a", ⟨"a", none, .literal "x"⟩), ("b", ⟨"b", none, .literal "y"⟩)]⟩ =
      tableItems ⟨none, "a", [("b", ⟨"b", none, .literal "y"⟩), ("a", ⟨"a", none, .literal "x"⟩)]⟩ := by
  exact claim_C6_determinism_amended.1
    ⟨none, "a", [("a", ⟨"a", none, .literal "x"⟩), ("b", ⟨"b", none, .literal "y"⟩)]⟩
    ⟨none, "a", [("b", ⟨"b", none, .literal "y"⟩), ("a", ⟨"a", none, .literal "x"⟩)]⟩
    (List.Perm.swap _ _ _)

/-- C10: Repetition termination.  (1) If every successful match of the inner
expression strictly advances `pos`, the inner expression always completes
from positions within the input bound `L` given fuel `F₀`, and it never
moves `pos` past `L`, then the emitted `zero_or_more` and `one_or_more`
loops complete within fuel `F₀ + (L - pos) + 2`.  (2) If at some position
`p` the inner expression always succeeds without consuming input, both
loops started at `p` fail to complete under every fuel — the emitted
`while (true)` loop never exits. -/
theorem claim_C10_repetition :
    (∀ (g : Grammar) (e : Expr) (inp : List Char) (L F₀ : Nat) (s : PState),
      (∀ f (s₀ s₁ : PState) v, s₀.input = inp → runExpr g f e s₀ = some (s₁, some v) →
        s₀.pos < s₁.pos) →
      (∀ f, F₀ ≤ f → ∀ s₀ : PState, s₀.input = inp → s₀.pos ≤ L → runExpr g f e s₀ ≠ none) →
      (∀ f (s₀ s₁ : PState) r, s₀.input = inp → s₀.pos ≤ L → runExpr g f e s₀ = some (s₁, r) →
        s₁.pos ≤ L) →
      s.input = inp → s.pos ≤ L →
      runExpr g (F₀ + (L - s.pos) + 1 + 1) (.zero_or_more e) s ≠ none ∧
      runExpr g (F₀ + (L - s.pos) + 1 + 1) (.one_or_more e) s ≠ none) ∧
    (∀ (g : Grammar) (e : Expr) (inp : List Char) (p : Nat) (s : PState),
      (∀ f (s₀ s₁ : PState) r, s₀.input = inp → s₀.pos = p →
        runExpr g f e s₀ = some (s₁, r) → r ≠ none ∧ s₁.pos = p) →
      s.input = inp → s.pos = p →
      ∀ F, runExpr g F (.zero_or_more e) s = none ∧
        runExpr g F (.one_or_more e) s = none) := by
  constructor
  · intro g e inp L F₀ s hadv hterm hbound hinp hle
    generalize hFq : F₀ + (L - s.pos) + 1 = Fq
    constructor
    · simp only [runExpr]
      have h := runLoop_terminates g e inp L F₀ hadv hterm hbound (L - s.pos)
        Fq s [] (by omega) hinp hle (le_refl _)
      cases hq : runLoop g Fq e s [] with
      | none => exact absurd hq h
      | some out =>
        obtain ⟨s₁, acc⟩ := out
        simp
    · simp only [runExpr]
      cases hq : runExpr g Fq e s with
      | none => exact absurd hq (hterm Fq (by omega) s hinp hle)
      | some out =>
        obtain ⟨s₁, r⟩ := out
        cases r with
        | none => simp
        | some v =>
          have hp1 : s.pos < s₁.pos := hadv Fq s s₁ v hinp hq
          have hb1 : s₁.pos ≤ L := hbound Fq s s₁ _ hinp hle hq
          have hinp1 : s₁.input = inp := by
            have hb := ((run_basic g Fq).1 _ _ _ hq).1
            rw [hb, hinp]
          have h := runLoop_terminates g e inp L F₀ hadv hterm hbound (L - s₁.pos)
            Fq s₁ [v] (by omega) hinp1 hb1 (le_refl _)
          obtain ⟨out2, hq2⟩ : ∃ o, runLoop g Fq e s₁ [v] = some o := by
            cases hr2 : runLoop g Fq e s₁ [v] with
            | none => exact absurd hr2 h
            | some o => exact ⟨o, rfl⟩
          simp [hq2]
  · intro g e inp p s hnc hinp hpos F
    cases F with
    | zero => exact ⟨rfl, rfl⟩
    | succ m =>
      constructor
      · simp only [runExpr]
        rw [runLoop_diverges g e inp p hnc m s [] hinp hpos]
      · simp only [runExpr]
        cases hq : runExpr g m e s with
        | none => rfl
        | some out =>
          obtain ⟨s₁, r⟩ := out
          obtain ⟨hr, hp1⟩ := hnc m s s₁ r hinp hpos hq
          cases r with
          | none => exact absurd rfl hr
          | some v =>
            have hinp1 : s₁.input = inp := by
              have hb := ((run_basic g m).1 _ _ _ hq).1
              rw [hb, hinp]
            have hdiv := runLoop_diverges g e inp p hnc m s₁ [v] hinp1 hp1
            simp [hdiv]

/-- C10 witness: with inner expression `.` (always consumes one character)
the loops complete on input `"a"`; with inner expression the empty literal
(always succeeds consuming nothing) both loops return no result at every
fuel. -/
theorem claim_C10_witness :
    (runExpr ⟨"s", []⟩ (1 + (1 - (initState ['a']).pos) + 1 + 1)
        (.zero_or_more .any) (initState ['a']) ≠ none ∧
     runExpr ⟨"s", []⟩ (1 + (1 - (initState ['a']).pos) + 1 + 1)
        (.one_or_more .any) (initState ['a']) ≠ none) ∧
    (runExpr ⟨"s", []⟩ 5 (.zero_or_more (.literal [])) (initState ['a']) = none ∧
     runExpr ⟨"s", []⟩ 5 (.one_or_more (.literal [])) (initState ['a']) = none) := by
  constructor
  · refine claim_C10_repetition.1 ⟨"s", []⟩ .any ['a'] 1 1 (initState ['a']) ?_ ?_ ?_ rfl
      (by decide)
    · intro f s₀ s₁ v hinp h
      cases f with
      | zero => simp [runExpr] at h
      | succ n =>
        simp only [runExpr] at h
        split at h
        · rename_i c hg
          simp only [Option.some.injEq, Prod.mk.injEq] at h
          obtain ⟨hs, -⟩ := h
          rw [← hs]
          exact Nat.lt_succ_self _
        · simp at h
    · intro f hf s₀ hinp hle
      cases f with
      | zero => omega
      | succ n =>
        simp only [runExpr]
        split <;> simp
    · intro f s₀ s₁ r hinp hle h
      cases f with
      | zero => simp [runExpr] at h
      | succ n =>
        simp only [runExpr] at h
        split at h
        · rename_i c hg
          simp only [Option.some.injEq, Prod.mk.injEq] at h
          obtain ⟨hs, -⟩ := h
          obtain ⟨hlt, -⟩ := List.get?_eq_some.mp hg
          rw [hinp] at hlt
          simp at hlt
          rw [← hs]
          show s₀.pos + 1 ≤ 1
          omega
        · rename_i hg
          simp only [Option.some.injEq, Prod.mk.injEq] at h
          obtain ⟨hs, -⟩ := h
          rw [← hs]
          have hfr := (failReport_fields s₀ "any character").2.1
          rw [hfr]
          exact hle
  · refine claim_C10_repetition.2 ⟨"s", []⟩ (.literal []) ['a'] 0 (initState ['a']) ?_ rfl rfl 5
    intro f s₀ s₁ r hinp hpos h
    cases f with
    | zero => simp [runExpr] at h
    | succ n =>
      simp only [runExpr] at h
      split at h
      · simp only [Option.some.injEq, Prod.mk.injEq] at h
        obtain ⟨hs, hr⟩ := h
        subst hs
        subst hr
        exact ⟨by simp, by simp [hpos]⟩
      · rename_i hcond
        exact absurd (by simp) hcond

end PegEmitter
